import Mathlib

/-!
Verification of the PCAP ingestion pipeline (`main.py`, `pcap_monitor.py`,
`ndjson_splitter.py`, `chunk_distributor.py`, `pcap_es_uploader.py`).

The Python sources are shallowly embedded as pure Lean functions:

* Filenames are `String`s; directory contents and append-only ledger files
  are `List String` (one entry per line, paths relative to their directory
  unless noted).
* Outcomes of external effects (the `split`/`curl` subprocesses, `os.rename`
  / `shutil.move`, `os.remove`) are supplied as Boolean oracles, so each
  embedded function is a pure function of the starting state and those
  oracles.  Within one coordinator run the order in which concurrent upload
  tasks append to a ledger is immaterial to the claims (ledgers are used as
  sets); the embedding fixes the submission (sorted) order.
* `sorted(...)` on Python strings compares code points lexicographically;
  `listLe`/`strLe` below implement exactly that comparison and `sortStr`
  is the corresponding sort.
-/

/-- Code-point comparison of character lists, as Python compares `str`
values: lexicographic, shorter list first on ties. -/
def listLe : List Char → List Char → Bool
  | [], _ => true
  | _ :: _, [] => false
  | a :: as, b :: bs =>
    if a.toNat < b.toNat then true
    else if b.toNat < a.toNat then false
    else listLe as bs

/-- Strict code-point comparison of character lists (Python `<` on `str`). -/
def listLt : List Char → List Char → Bool
  | [], [] => false
  | [], _ :: _ => true
  | _ :: _, [] => false
  | a :: as, b :: bs =>
    if a.toNat < b.toNat then true
    else if b.toNat < a.toNat then false
    else listLt as bs

/-- Python `s1 <= s2` on strings. -/
def strLe (a b : String) : Bool := listLe a.data b.data

/-- Python `s1 < s2` on strings. -/
def strLt (a b : String) : Bool := listLt a.data b.data

/-- The ordering used by Python `sorted`, as a proposition. -/
def StrLeP (a b : String) : Prop := strLe a b = true

instance : DecidableRel StrLeP := fun a b => instDecidableEqBool (strLe a b) true

/-- Python `sorted` on a list of strings. -/
def sortStr (l : List String) : List String := List.insertionSort StrLeP l

/-- Python `name.startswith(p)`. -/
def strStarts (f p : String) : Bool := f.data.take p.data.length == p.data

/-- Python `name.endswith(p)`; also the meaning of a `*<p>` glob. -/
def strEnds (f p : String) : Bool := f.data.drop (f.data.length - p.data.length) == p.data

/-!
Chunk Splitter (`ndjson_splitter.py`).

`split_ndjson_file` shells out to `split -l <batch_size> -a 4 <ndjson's path>
<split_dir>/<base>.chunk_`.  GNU `split` with `-a 4` and no `-d` names its
k-th output file by appending a fixed-width, four-character, lowercase
alphabetic suffix: the base-26 numeral of k over the digits 'a'..'z',
left-padded with 'a'.  An n-line input yields ceil(n / batch_size) output
files; an empty input yields none and exits 0.  Environmental failure of the
subprocess (`CalledProcessError`) is the `toolOk` oracle; failure of
`os.remove` on the source artifact is the `removeOk` oracle (that exception
is caught and the function still returns `True`).
-/

/-- The d-th suffix digit of GNU `split`: 'a' + d. -/
def alphaDigit (d : Nat) : Char := Char.ofNat (97 + d)

/-- Fixed-width base-26 alphabetic numeral of `k` (big-endian, width `w`),
exactly the suffix `split -a w` gives its k-th output file. -/
def alphaSuffix : Nat → Nat → List Char
  | 0, _ => []
  | w + 1, k => alphaSuffix w (k / 26) ++ [alphaDigit (k % 26)]

/-- Name of the k-th chunk the splitter writes for a base:
`<base>.chunk_<four alphabetic suffix characters>`. -/
def chunkName (base : String) (k : Nat) : String :=
  base ++ ".chunk_" ++ ⟨alphaSuffix 4 k⟩

/-- Modelled from the spec: the spec's §6 chunk-naming sentence reads
"`<base>.chunk_<sequence>`, sequence zero-padded to a fixed width", i.e. the
decimal numeral of the sequence index left-padded with '0' to the fixed
suffix width (4, matching `-a 4`).  Comparator for claim C7 only; the code's
naming is `chunkName` above. -/
def decSuffix : Nat → Nat → List Char
  | 0, _ => []
  | w + 1, k => decSuffix w (k / 10) ++ [Char.ofNat (48 + k % 10)]

/-- Modelled from the spec: chunk name with a zero-padded decimal sequence
(spec wording), to be compared against the source's `chunkName`. -/
def specChunkName (base : String) (k : Nat) : String :=
  base ++ ".chunk_" ++ ⟨decSuffix 4 k⟩

/-- Number of chunk files `split -l b` produces from an `n`-line input. -/
def numChunks (n b : Nat) : Nat := (n + b - 1) / b

/-- The chunk files `split` writes for one base. -/
def splitChunkNames (base : String) (n b : Nat) : List String :=
  (List.range (numChunks n b)).map (chunkName base)

/-- State touched by `ndjson_splitter`: the `.ndjson` conversion artifacts
present in `OUTPUT_DIR` (base name with its line count), the chunk files in
`SPLIT_DIR`, and the lines of `SPLIT_DIR/split.log`. -/
structure SplitState where
  artifacts : List (String × Nat)
  staging : List String
  splitLog : List String

/-- Embedding of `ndjson_splitter.split_ndjson_file(ndjson_path, split_dir,
batch_size)` for the artifact `(base, n)`: on subprocess success the chunk
files appear in the staging directory, the source artifact is removed
(`os.remove`; its failure is caught and logged), and `True` is returned;
on `CalledProcessError` nothing is recorded and `False` is returned. -/
def split_ndjson_file (toolOk removeOk : String → Bool) (b : Nat) (base : String)
    (n : Nat) (st : SplitState) : SplitState × Bool :=
  if toolOk base then
    let st1 : SplitState :=
      { st with staging := st.staging ++ splitChunkNames base n b }
    let st2 : SplitState :=
      if removeOk base then
        { st1 with artifacts := st1.artifacts.filter (fun a => !(a.1 == base)) }
      else st1
    (st2, true)
  else (st, false)

/-- One iteration of the loop in `ndjson_splitter.main`: skip the artifact if
its base is in the split log read at startup (`log0`), otherwise split it and
append the base to `split.log` on success. -/
def splitterStep (toolOk removeOk : String → Bool) (b : Nat) (log0 : List String)
    (st : SplitState) (a : String × Nat) : SplitState :=
  if log0.contains a.1 then st
  else
    let r := split_ndjson_file toolOk removeOk b a.1 a.2 st
    if r.2 then { r.1 with splitLog := r.1.splitLog ++ [a.1] } else r.1

/-- Python `sorted` over the artifact list, by file name (equivalently by
base, since every name is `<base>.ndjson`). -/
def sortArtifacts (l : List (String × Nat)) : List (String × Nat) :=
  List.insertionSort (fun a b : String × Nat => strLe a.1 b.1 = true) l

/-- Embedding of `ndjson_splitter.main` (after configuration): read
`split.log` once, then process the sorted `.ndjson` files. -/
def splitter_main (toolOk removeOk : String → Bool) (b : Nat) (st : SplitState) :
    SplitState :=
  (sortArtifacts st.artifacts).foldl (splitterStep toolOk removeOk b st.splitLog) st

/-!
Lane Distributor (`chunk_distributor.py` and `main.distribute_chunks_for_base`).

`chunk_distributor.main` groups staged chunk files by base, filters out the
ones whose path is already in `SPLIT_DIR/batch.log`, sorts the remainder and
moves the chunk at sorted position `idx` into `BATCH_DIRS[idx % 4]`
(round robin); after each successful `shutil.move` it appends the source
path to `batch.log`.  `chunk_distributor.distribute_chunks` is the
contiguous-split policy: the sorted list is cut into 4 contiguous runs of
sizes `n // 4 + 1` (first `n % 4` lanes) and `n // 4`.
`main.distribute_chunks_for_base` re-implements that same slicing inline,
moves each chunk with `os.rename` (removing an already-existing destination
first) and returns the list of moved chunks — it maintains no ledger.

Lane directories are modelled as a function from lane index to directory
contents; ledger entries and the moved-list entries are chunk filenames
(the `SPLIT_DIR`/`BATCH_DIR` path components are elided, as every file
keeps its name across the move).  Grouping a staged file under base `b`
(`fname.split(".chunk_")[0] == b`) is modelled as
`fname.startswith(b + ".chunk_")`, which agrees with the source whenever
the base itself does not contain `".chunk_"`; `main.find_chunk_files_for_base`
uses `startswith` literally.
-/

/-- Lane size under the contiguous-split policy:
`base_count + (1 if i < extras else 0)` with `base_count = n // 4`,
`extras = n % 4`. -/
def laneSize (n i : Nat) : Nat := n / 4 + if i < n % 4 then 1 else 0

/-- Start index (the running `idx` of the source loop) of lane `i`'s slice. -/
def laneOffset (n : Nat) : Nat → Nat
  | 0 => 0
  | i + 1 => laneOffset n i + laneSize n i

/-- The four contiguous slices `sorted[idx : idx + count]` of the loop shared
by `chunk_distributor.distribute_chunks` and `main.distribute_chunks_for_base`
(the latter re-states the same slicing code inline). -/
def contiguousBatches (l : List String) : List (List String) :=
  (List.range 4).map (fun i => (l.drop (laneOffset l.length i)).take (laneSize l.length i))

/-- Embedding of `chunk_distributor.distribute_chunks(chunk_files)`. -/
def distribute_chunks (chunk_files : List String) : List (List String) :=
  contiguousBatches (sortStr chunk_files)

/-- State touched by distribution: the chunk files in `SPLIT_DIR`, the four
lane directories' contents (indexed by lane number), and the lines of
`SPLIT_DIR/batch.log`. -/
structure DistState where
  staging : List String
  lanes : Nat → List String
  distLedger : List String

/-- Append a file to one lane directory. -/
def pushLane (lanes : Nat → List String) (i : Nat) (f : String) : Nat → List String :=
  fun j => if j = i then lanes j ++ [f] else lanes j

/-- One iteration of the round-robin move loop of `chunk_distributor.main`:
for the chunk at sorted position `p.1`, `shutil.move` it into lane
`p.1 % 4`; only on success is its identifier appended to `batch.log`
(`log_distributed_chunk`); on failure the exception is logged and the chunk
stays in staging. -/
def distStep (moveOk : String → Bool) (st : DistState) (p : Nat × String) : DistState :=
  if moveOk p.2 then
    { staging := st.staging.erase p.2,
      lanes := pushLane st.lanes (p.1 % 4) p.2,
      distLedger := st.distLedger ++ [p.2] }
  else st

/-- Embedding of the body of `chunk_distributor.main` for one base: filter
the base's staged chunks to the undistributed ones, sort, then run the
round-robin move loop. -/
def chunk_distributor_base (moveOk : String → Bool) (base : String) (st : DistState) :
    DistState :=
  let chunk_files := st.staging.filter (fun f => strStarts f (base ++ ".chunk_"))
  let undistributed := chunk_files.filter (fun f => !st.distLedger.contains f)
  (sortStr undistributed).enum.foldl (distStep moveOk) st

/-- One `os.rename` of `main.distribute_chunks_for_base`: move `src` into
lane `lane` and append it to the moved list; on failure log and continue.
(`os.makedirs` and the overwrite of an already-existing destination are
elided: lane contents are tracked as plain lists of names.) -/
def moveChunk (moveOk : String → Bool) (lane : Nat) (acc : DistState × List String)
    (src : String) : DistState × List String :=
  if moveOk src then
    ({ staging := acc.1.staging.erase src,
       lanes := pushLane acc.1.lanes lane src,
       distLedger := acc.1.distLedger }, acc.2 ++ [src])
  else acc

/-- Embedding of `main.distribute_chunks_for_base(split_dir, batch_dirs,
base)`: list the base's staged chunks sorted (`find_chunk_files_for_base`),
return `[]` if none, else cut them into the four contiguous batches and move
batch `i` into lane `i`, returning the moved list.  No distribution ledger
is read or written on this path. -/
def distribute_chunks_for_base (moveOk : String → Bool) (base : String)
    (st : DistState) : DistState × List String :=
  let chunk_files := sortStr (st.staging.filter (fun f => strStarts f (base ++ ".chunk_")))
  if chunk_files.isEmpty then (st, [])
  else
    (contiguousBatches chunk_files).enum.foldl
      (fun acc p => p.2.foldl (moveChunk moveOk p.1) acc) (st, [])

/-!
Upload Coordinator (`pcap_es_uploader.py` and `main.upload_chunks_for_base`).

`upload_chunk` POSTs one chunk file to `<es_node>/pcap/_bulk` via `curl`; on
curl exit code 0 it appends the chunk's *filename* to the lane's
`upload.log` and reports success, on any failure (non-zero exit or
exception) it logs and reports failure.  The success of that request is the
`uploadOk` oracle; the success of the later `os.remove` is the `removeOk`
oracle.
-/

/-- One lane directory with its `upload.log`. -/
structure LaneState where
  files : List String
  ledger : List String

/-- Embedding of `pcap_es_uploader.process_batch_dir(batch_dir, es_nodes)`:
glob `*` + `CHUNK_EXT` (`CHUNK_EXT = ".ndjson"`), sort, drop the names
already in `upload.log`, upload the remainder concurrently (each success
appends the filename to the ledger), then delete exactly the successfully
uploaded chunk files (a failing delete is logged and leaves the file).
Returns the new lane state and the dispatched list `to_upload`. -/
def process_batch_dir (uploadOk removeOk : String → Bool) (st : LaneState) :
    LaneState × List String :=
  let chunk_files := sortStr (st.files.filter (fun f => strEnds f ".ndjson"))
  let to_upload := chunk_files.filter (fun f => !st.ledger.contains f)
  let successes := to_upload.filter uploadOk
  let deleted := successes.filter removeOk
  ({ files := st.files.filter (fun f => !deleted.contains f),
     ledger := st.ledger ++ successes }, to_upload)

/-- Embedding of one lane's worth of `main.upload_chunks_for_base`: glob
`<base>.chunk_*`, sort, upload every one of them (no ledger filter), with
each success appending the filename to the lane's `upload.log`.  No chunk
file is deleted on this path. -/
def upload_lane_for_base (uploadOk : String → Bool) (base : String) (st : LaneState) :
    LaneState :=
  let chunk_files := sortStr (st.files.filter (fun f => strStarts f (base ++ ".chunk_")))
  { files := st.files, ledger := st.ledger ++ chunk_files.filter uploadOk }

/-!
Stability Watcher (`main.monitor_directory` with `main.is_file_stable`;
`pcap_monitor.py` repeats the same loop without the queue).

A stability probe is two `os.path.getsize` reads separated by
`time.sleep(interval)`; a read that raises `OSError` is `none`.  Each poll
cycle is a directory listing together with the outcome the probe would have
for each file during that cycle.  The real `processed_files` set and the
listing set-comprehension are modelled as duplicate-free lists; emitted
events are the queue `put`s in iteration order.
-/

/-- Outcome of one stability probe: the two size reads. -/
structure ProbeResult where
  firstSize : Option Nat
  secondSize : Option Nat

/-- Embedding of `is_file_stable(filepath, interval)`: `False` as soon as a
read fails, else equality of the two sizes. -/
def is_file_stable (p : ProbeResult) : Bool :=
  match p.firstSize, p.secondSize with
  | some a, some b => a == b
  | _, _ => false

/-- One poll cycle of the watcher loop: what `os.listdir` returned and how
each file's probe would turn out. -/
structure PollCycle where
  listing : List String
  probe : String → ProbeResult

/-- Body of the `for filepath in new_files` loop: files already claimed are
skipped; a file whose probe succeeds with equal sizes is enqueued
(`file_queue.put`) and added to `processed_files`; any other file is left
for the next cycle.  The accumulator is (events emitted, processed set). -/
def pollStep (c : PollCycle) (acc : List String × List String) (f : String) :
    List String × List String :=
  if acc.2.contains f then acc
  else if is_file_stable (c.probe f) then (acc.1 ++ [f], acc.2 ++ [f])
  else acc

/-- One iteration of the `while` loop of `monitor_directory`: filter the
listing to `.pcap` files and run the probe loop.  Returns the events
emitted this cycle and the updated processed set. -/
def pollCycle (c : PollCycle) (processed : List String) : List String × List String :=
  (c.listing.filter (fun f => strEnds f ".pcap")).foldl (pollStep c) ([], processed)

/-- The watcher loop over a finite schedule of poll cycles: all events
emitted, with the final processed set. -/
def runCycles : List PollCycle → List String → List String × List String
  | [], processed => ([], processed)
  | c :: cs, processed =>
    let r := pollCycle c processed
    let rest := runCycles cs r.2
    (r.1 ++ rest.1, rest.2)

/-!
Stage Runner (`main.process_pcap_file`).

The per-file pipeline: Convert (`pcap_to_ndjson.convert_pcap_to_ndjson`),
Split (`ndjson_splitter.split_ndjson_file`, called directly — no split-log
consultation on this path), Distribute (`distribute_chunks_for_base`),
Upload (`upload_chunks_for_base`), then `os.remove` of the original
`.pcap`.  A `False` from Convert or Split, or an empty moved list from
Distribute, makes the function `return` at once.  `upload_chunks_for_base`
returns `None` — per-chunk upload failures are only logged — so control
always reaches the removal of the source file once distribution returned a
non-empty moved list.  The conversion artifact itself is not tracked here
(the splitter consumes it within the same call).
-/

/-- Which stages of one `process_pcap_file` call ran, and whether the
original source file was deleted at the end. -/
structure PipelineTrace where
  splitRan : Bool
  distributeRan : Bool
  uploadRan : Bool
  sourceDeleted : Bool
deriving DecidableEq

/-- Filesystem state a single `process_pcap_file` call touches: the source
`.pcap` file, the staging directory with the distribution state, and the
four per-lane `upload.log`s. -/
structure World where
  sourcePresent : Bool
  dist : DistState
  upLedgers : Nat → List String

/-- Embedding of `main.upload_chunks_for_base(batch_dirs, base)` acting on
all lanes: each lane's ledger is updated by `upload_lane_for_base`; lane
directory contents are untouched (this path deletes nothing). -/
def upload_chunks_for_base (uploadOk : String → Bool) (base : String)
    (lanes : Nat → List String) (ledgers : Nat → List String) : Nat → List String :=
  fun i => (upload_lane_for_base uploadOk base ⟨lanes i, ledgers i⟩).ledger

/-- Embedding of `main.process_pcap_file(pcap_path)` for the file with base
name `base` and `n` converted records.  `convertOk` is the result of the
Convert stage, `toolOk`/`removeArtifactOk` the split-stage oracles,
`moveOk` the per-chunk move oracle, `uploadOk` the per-chunk upload oracle
and `removeSourceOk` the final `os.remove(pcap_path)` (whose exception is
caught and logged). -/
def process_pcap_file (convertOk toolOk : Bool) (n b : Nat)
    (moveOk uploadOk : String → Bool) (removeSourceOk : Bool) (base : String)
    (w : World) : World × PipelineTrace :=
  if !convertOk then (w, ⟨false, false, false, false⟩)
  else if !toolOk then (w, ⟨true, false, false, false⟩)
  else
    let w1 : World :=
      { w with dist := { w.dist with staging := w.dist.staging ++ splitChunkNames base n b } }
    let r := distribute_chunks_for_base moveOk base w1.dist
    let w2 : World := { w1 with dist := r.1 }
    if r.2.isEmpty then (w2, ⟨true, true, false, false⟩)
    else
      let w3 : World :=
        { w2 with upLedgers := upload_chunks_for_base uploadOk base w2.dist.lanes w2.upLedgers }
      let w4 : World := if removeSourceOk then { w3 with sourcePresent := false } else w3
      (w4, ⟨true, true, true, removeSourceOk⟩)

/-- Repeated runs of the whole pipeline on the same source file, one run per
process restart: the watcher of a fresh process re-discovers the source
file (its `processed_files` set is in-memory only) and the worker runs
`process_pcap_file` again. -/
def restartRuns (convertOk toolOk : Bool) (n b : Nat)
    (moveOk uploadOk : String → Bool) (removeSourceOk : Bool) (base : String) :
    Nat → World → World
  | 0, w => w
  | k + 1, w =>
    restartRuns convertOk toolOk n b moveOk uploadOk removeSourceOk base k
      (process_pcap_file convertOk toolOk n b moveOk uploadOk removeSourceOk base w).1

theorem charEq_of_toNat_eq {a b : Char} (h : a.toNat = b.toNat) : a = b := by
  apply Char.ext
  unfold Char.toNat at h
  exact UInt32.toNat.inj h

theorem listLe_cons_iff {a b : Char} {as bs : List Char} :
    listLe (a :: as) (b :: bs) = true ↔
      a.toNat < b.toNat ∨ (a.toNat = b.toNat ∧ listLe as bs = true) := by
  simp only [listLe]
  by_cases h1 : a.toNat < b.toNat
  · simp [h1]
  · by_cases h2 : b.toNat < a.toNat
    · simp only [if_neg h1, if_pos h2]
      constructor
      · intro h; cases h
      · intro h
        exfalso
        rcases h with h | ⟨h, _⟩ <;> omega
    · have he : a.toNat = b.toNat := by omega
      simp [h1, h2, he]

theorem listLt_cons_iff {a b : Char} {as bs : List Char} :
    listLt (a :: as) (b :: bs) = true ↔
      a.toNat < b.toNat ∨ (a.toNat = b.toNat ∧ listLt as bs = true) := by
  simp only [listLt]
  by_cases h1 : a.toNat < b.toNat
  · simp [h1]
  · by_cases h2 : b.toNat < a.toNat
    · simp only [if_neg h1, if_pos h2]
      constructor
      · intro h; cases h
      · intro h
        exfalso
        rcases h with h | ⟨h, _⟩ <;> omega
    · have he : a.toNat = b.toNat := by omega
      simp [h1, h2, he]

theorem listLe_total (xs ys : List Char) : listLe xs ys = true ∨ listLe ys xs = true := by
  induction xs generalizing ys with
  | nil => left; rfl
  | cons a as ih =>
    cases ys with
    | nil => right; rfl
    | cons b bs =>
      rcases Nat.lt_trichotomy a.toNat b.toNat with h | h | h
      · left; exact listLe_cons_iff.mpr (Or.inl h)
      · rcases ih bs with h' | h'
        · left; exact listLe_cons_iff.mpr (Or.inr ⟨h, h'⟩)
        · right; exact listLe_cons_iff.mpr (Or.inr ⟨h.symm, h'⟩)
      · right; exact listLe_cons_iff.mpr (Or.inl h)

theorem listLe_trans {xs ys zs : List Char} (h1 : listLe xs ys = true)
    (h2 : listLe ys zs = true) : listLe xs zs = true := by
  induction xs generalizing ys zs with
  | nil => rfl
  | cons a as ih =>
    cases ys with
    | nil => simp [listLe] at h1
    | cons b bs =>
      cases zs with
      | nil => simp [listLe] at h2
      | cons c cs =>
        rw [listLe_cons_iff] at h1 h2 ⊢
        rcases h1 with h1 | ⟨he1, ht1⟩
        · rcases h2 with h2 | ⟨he2, _⟩
          · exact Or.inl (Nat.lt_trans h1 h2)
          · exact Or.inl (by omega)
        · rcases h2 with h2 | ⟨he2, ht2⟩
          · exact Or.inl (by omega)
          · exact Or.inr ⟨by omega, ih ht1 ht2⟩

theorem listLe_antisymm {xs ys : List Char} (h1 : listLe xs ys = true)
    (h2 : listLe ys xs = true) : xs = ys := by
  induction xs generalizing ys with
  | nil =>
    cases ys with
    | nil => rfl
    | cons b bs => simp [listLe] at h2
  | cons a as ih =>
    cases ys with
    | nil => simp [listLe] at h1
    | cons b bs =>
      rw [listLe_cons_iff] at h1 h2
      rcases h1 with h1 | ⟨he1, ht1⟩
      · rcases h2 with h2 | ⟨he2, _⟩ <;> omega
      · rcases h2 with h2 | ⟨he2, ht2⟩
        · omega
        · rw [charEq_of_toNat_eq he1, ih ht1 ht2]

@[instance] theorem strLeP_total : IsTotal String StrLeP :=
  ⟨fun a b => listLe_total a.data b.data⟩

@[instance] theorem strLeP_trans : IsTrans String StrLeP :=
  ⟨fun _ _ _ h1 h2 => listLe_trans h1 h2⟩

@[instance] theorem strLeP_antisymm : IsAntisymm String StrLeP :=
  ⟨fun a b h1 h2 => by
    cases a with
    | mk da =>
      cases b with
      | mk db => exact congrArg String.mk (listLe_antisymm h1 h2)⟩

theorem mem_sortStr {a : String} {l : List String} : a ∈ sortStr l ↔ a ∈ l :=
  (List.perm_insertionSort StrLeP l).mem_iff

theorem length_sortStr (l : List String) : (sortStr l).length = l.length :=
  (List.perm_insertionSort StrLeP l).length_eq

theorem sortStr_eq_of_perm {l l' : List String} (h : l.Perm l') : sortStr l = sortStr l' :=
  List.eq_of_perm_of_sorted
    ((List.perm_insertionSort StrLeP l).trans (h.trans (List.perm_insertionSort StrLeP l').symm))
    (List.sorted_insertionSort StrLeP l) (List.sorted_insertionSort StrLeP l')

/-!
Supporting lemmas: contiguous-split arithmetic, round-robin counting, and
invariants of the distributor's move loop.
-/

theorem laneSize_eq (n i : Nat) : laneSize n i = n / 4 + min 1 (n % 4 - i) := by
  rw [laneSize]; split_ifs with h <;> omega

theorem laneOffset_eq (n i : Nat) : laneOffset n i = i * (n / 4) + min i (n % 4) := by
  induction i with
  | zero => simp [laneOffset]
  | succ i ih =>
    show laneOffset n i + laneSize n i = _
    rw [ih, laneSize_eq, Nat.succ_mul]
    omega

theorem contiguous_sizes (l : List String) :
    (contiguousBatches l).map List.length =
      [laneSize l.length 0, laneSize l.length 1, laneSize l.length 2, laneSize l.length 3] := by
  have key : ∀ i, i < 4 →
      ((l.drop (laneOffset l.length i)).take (laneSize l.length i)).length =
        laneSize l.length i := by
    intro i hi
    rw [List.length_take, List.length_drop]
    interval_cases i <;> simp only [laneOffset_eq, laneSize_eq] <;> omega
  simp only [contiguousBatches, show List.range 4 = [0, 1, 2, 3] from rfl,
    List.map_cons, List.map_nil]
  rw [key 0 (by omega), key 1 (by omega), key 2 (by omega), key 3 (by omega)]

theorem contiguous_join (l : List String) : (contiguousBatches l).flatten = l := by
  have step : ∀ o c : Nat, (l.drop o).take c ++ l.drop (o + c) = l.drop o := by
    intro o c
    conv_rhs => rw [← List.take_append_drop c (l.drop o)]
    rw [List.drop_drop]
  have b3 : (l.drop (laneOffset l.length 3)).take (laneSize l.length 3) =
      l.drop (laneOffset l.length 3) := by
    apply List.take_of_length_le
    rw [List.length_drop]
    simp only [laneOffset_eq, laneSize_eq]
    omega
  show (l.drop (laneOffset l.length 0)).take (laneSize l.length 0) ++
      ((l.drop (laneOffset l.length 1)).take (laneSize l.length 1) ++
        ((l.drop (laneOffset l.length 2)).take (laneSize l.length 2) ++
          ((l.drop (laneOffset l.length 3)).take (laneSize l.length 3) ++ []))) = l
  rw [List.append_nil, b3]
  rw [show laneOffset l.length 3 = laneOffset l.length 2 + laneSize l.length 2 from rfl]
  rw [step]
  rw [show laneOffset l.length 2 = laneOffset l.length 1 + laneSize l.length 1 from rfl]
  rw [step]
  rw [show laneOffset l.length 1 = laneOffset l.length 0 + laneSize l.length 0 from rfl]
  rw [step]
  show l.drop 0 = l
  exact List.drop_zero l

theorem rrCount_eq (n i : Nat) (hi : i < 4) :
    ((List.range n).filter (fun j => j % 4 == i)).length = (n - i + 3) / 4 := by
  induction n with
  | zero =>
    simp only [List.range_zero, List.filter_nil, List.length_nil]
    omega
  | succ n ih =>
    rw [List.range_succ, List.filter_append, List.length_append, ih]
    by_cases h : n % 4 = i
    · rw [show List.filter (fun j => j % 4 == i) [n] = [n] by simp [h]]
      show (n - i + 3) / 4 + 1 = (n + 1 - i + 3) / 4
      omega
    · rw [show List.filter (fun j => j % 4 == i) [n] = [] by simp [h]]
      show (n - i + 3) / 4 + 0 = (n + 1 - i + 3) / 4
      omega

theorem distFold_ledger (m : String → Bool) (ps : List (Nat × String)) (st : DistState) :
    (ps.foldl (distStep m) st).distLedger =
      st.distLedger ++ (ps.filter (fun p => m p.2)).map Prod.snd := by
  induction ps generalizing st with
  | nil => simp
  | cons q qs ih =>
    rw [List.foldl_cons, ih]
    cases hm : m q.2 with
    | true => simp [distStep, hm, List.filter_cons]
    | false => simp [distStep, hm, List.filter_cons]

theorem distFold_lanes (m : String → Bool) (ps : List (Nat × String)) (st : DistState)
    (j : Nat) :
    (ps.foldl (distStep m) st).lanes j =
      st.lanes j ++ (ps.filter (fun p => m p.2 && (p.1 % 4 == j))).map Prod.snd := by
  induction ps generalizing st with
  | nil => simp
  | cons q qs ih =>
    rw [List.foldl_cons, ih]
    cases hm : m q.2 with
    | false => simp [distStep, hm, List.filter_cons]
    | true =>
      by_cases hj : q.1 % 4 = j
      · simp [distStep, hm, pushLane, hj, List.filter_cons]
      · simp [distStep, hm, pushLane, hj, List.filter_cons, Ne.symm hj]

theorem distFold_staging_keep (m : String → Bool) (ps : List (Nat × String))
    (st : DistState) (f : String) (hf : m f = false) :
    f ∈ (ps.foldl (distStep m) st).staging ↔ f ∈ st.staging := by
  induction ps generalizing st with
  | nil => rfl
  | cons q qs ih =>
    rw [List.foldl_cons, ih]
    cases hm : m q.2 with
    | false => simp [distStep, hm]
    | true =>
      have hne : f ≠ q.2 := by
        intro h; rw [h] at hf; rw [hf] at hm; cases hm
      simp only [distStep, hm, if_true]
      exact List.mem_erase_of_ne hne

theorem distFold_staging_mono (m : String → Bool) (ps : List (Nat × String))
    (st : DistState) (f : String) (hf : f ∉ st.staging) :
    f ∉ (ps.foldl (distStep m) st).staging := by
  induction ps generalizing st with
  | nil => exact hf
  | cons q qs ih =>
    rw [List.foldl_cons]
    apply ih
    cases hm : m q.2 with
    | false => simpa [distStep, hm] using hf
    | true =>
      simp only [distStep, hm, if_true]
      intro hmem
      exact hf (List.mem_of_mem_erase hmem)

theorem distFold_staging_nodup (m : String → Bool) (ps : List (Nat × String))
    (st : DistState) (h : st.staging.Nodup) :
    (ps.foldl (distStep m) st).staging.Nodup := by
  induction ps generalizing st with
  | nil => exact h
  | cons q qs ih =>
    rw [List.foldl_cons]
    apply ih
    cases hm : m q.2 with
    | false => simpa [distStep, hm] using h
    | true =>
      simp only [distStep, hm, if_true]
      exact h.erase q.2

theorem distFold_staging_gone (m : String → Bool) (ps : List (Nat × String))
    (st : DistState) (h : st.staging.Nodup) (p : Nat × String) (hp : p ∈ ps)
    (hm : m p.2 = true) : p.2 ∉ (ps.foldl (distStep m) st).staging := by
  induction ps generalizing st with
  | nil => cases hp
  | cons q qs ih =>
    rw [List.foldl_cons]
    rcases List.mem_cons.mp hp with rfl | hp'
    · apply distFold_staging_mono
      simp only [distStep, hm, if_true]
      intro hmem
      exact absurd ((h.mem_erase_iff).mp hmem).1 (by simp)
    · apply ih _ _ hp'
      cases hmq : m q.2 with
      | false => simpa [distStep, hmq] using h
      | true =>
        simp only [distStep, hmq, if_true]
        exact h.erase q.2

/-!
Supporting lemmas: invariants of the watcher's poll loop.
-/

theorem contains_true_iff {l : List String} {a : String} : l.contains a = true ↔ a ∈ l := by
  simp

theorem contains_false_iff {l : List String} {a : String} : l.contains a = false ↔ a ∉ l := by
  simp

theorem pollStep_of_claimed (c : PollCycle) (acc : List String × List String) (f : String)
    (h : acc.2.contains f = true) : pollStep c acc f = acc := by
  unfold pollStep
  rw [h]
  rfl

theorem pollStep_of_stable (c : PollCycle) (acc : List String × List String) (f : String)
    (h1 : acc.2.contains f = false) (h2 : is_file_stable (c.probe f) = true) :
    pollStep c acc f = (acc.1 ++ [f], acc.2 ++ [f]) := by
  unfold pollStep
  rw [h1, h2]
  rfl

theorem pollStep_of_unstable (c : PollCycle) (acc : List String × List String) (f : String)
    (h1 : acc.2.contains f = false) (h2 : is_file_stable (c.probe f) = false) :
    pollStep c acc f = acc := by
  unfold pollStep
  rw [h1, h2]
  rfl

theorem pollFold_inv (c : PollCycle) (l : List String) (processed : List String) :
    ∀ ev pr, pr = processed ++ ev →
      (l.foldl (pollStep c) (ev, pr)).2 = processed ++ (l.foldl (pollStep c) (ev, pr)).1 := by
  induction l with
  | nil => intro ev pr h; exact h
  | cons f fs ih =>
    intro ev pr h
    rw [List.foldl_cons]
    cases h1 : pr.contains f with
    | true =>
      rw [pollStep_of_claimed c (ev, pr) f h1]
      exact ih ev pr h
    | false =>
      cases h2 : is_file_stable (c.probe f) with
      | true =>
        rw [pollStep_of_stable c (ev, pr) f h1 h2]
        exact ih _ _ (by rw [h, List.append_assoc])
      | false =>
        rw [pollStep_of_unstable c (ev, pr) f h1 h2]
        exact ih ev pr h

theorem pollFold_nodup (c : PollCycle) (l : List String) (processed : List String) :
    ∀ ev pr, pr = processed ++ ev → ev.Nodup → (∀ x ∈ ev, x ∉ processed) →
      (l.foldl (pollStep c) (ev, pr)).1.Nodup ∧
        ∀ x ∈ (l.foldl (pollStep c) (ev, pr)).1, x ∉ processed := by
  induction l with
  | nil => intro ev pr _ h2 h3; exact ⟨h2, h3⟩
  | cons f fs ih =>
    intro ev pr h1 h2 h3
    rw [List.foldl_cons]
    cases hc : pr.contains f with
    | true =>
      rw [pollStep_of_claimed c (ev, pr) f hc]
      exact ih ev pr h1 h2 h3
    | false =>
      have hnotpr : f ∉ pr := contains_false_iff.mp hc
      cases hs : is_file_stable (c.probe f) with
      | true =>
        rw [pollStep_of_stable c (ev, pr) f hc hs]
        apply ih
        · rw [h1, List.append_assoc]
        · apply List.Nodup.append h2 (List.nodup_singleton f)
          intro x hx hx'
          rw [List.mem_singleton] at hx'
          subst hx'
          exact hnotpr (by rw [h1]; exact List.mem_append_right _ hx)
        · intro x hx
          rcases List.mem_append.mp hx with hx' | hx'
          · exact h3 x hx'
          · rw [List.mem_singleton] at hx'
            subst hx'
            exact fun hmem => hnotpr (by rw [h1]; exact List.mem_append_left _ hmem)
      | false =>
        rw [pollStep_of_unstable c (ev, pr) f hc hs]
        exact ih ev pr h1 h2 h3

theorem pollFold_mem_sub (c : PollCycle) (l : List String) :
    ∀ acc f, f ∈ (l.foldl (pollStep c) acc).1 →
      f ∈ acc.1 ∨ (f ∈ l ∧ is_file_stable (c.probe f) = true) := by
  induction l with
  | nil => intro acc f h; exact Or.inl h
  | cons g gs ih =>
    intro acc f h
    rw [List.foldl_cons] at h
    rcases ih _ f h with h' | ⟨h1, h2⟩
    · cases hc : acc.2.contains g with
      | true =>
        rw [pollStep_of_claimed c acc g hc] at h'
        exact Or.inl h'
      | false =>
        cases hs : is_file_stable (c.probe g) with
        | true =>
          rw [pollStep_of_stable c acc g hc hs] at h'
          rcases List.mem_append.mp h' with h'' | h''
          · exact Or.inl h''
          · rw [List.mem_singleton] at h''
            subst h''
            exact Or.inr ⟨List.mem_cons_self _ _, hs⟩
        | false =>
          rw [pollStep_of_unstable c acc g hc hs] at h'
          exact Or.inl h'
    · exact Or.inr ⟨List.mem_cons_of_mem _ h1, h2⟩

theorem pollFold_events_mono (c : PollCycle) (l : List String) :
    ∀ acc f, f ∈ acc.1 → f ∈ (l.foldl (pollStep c) acc).1 := by
  induction l with
  | nil => intro acc f h; exact h
  | cons g gs ih =>
    intro acc f h
    rw [List.foldl_cons]
    apply ih
    cases hc : acc.2.contains g with
    | true =>
      rw [pollStep_of_claimed c acc g hc]
      exact h
    | false =>
      cases hs : is_file_stable (c.probe g) with
      | true =>
        rw [pollStep_of_stable c acc g hc hs]
        exact List.mem_append_left _ h
      | false =>
        rw [pollStep_of_unstable c acc g hc hs]
        exact h

theorem pollFold_complete (c : PollCycle) (l : List String) (processed : List String) :
    ∀ ev pr, pr = processed ++ ev → ∀ f, f ∈ l → is_file_stable (c.probe f) = true →
      f ∉ processed → f ∈ (l.foldl (pollStep c) (ev, pr)).1 := by
  induction l with
  | nil => intro ev pr _ f h; cases h
  | cons g gs ih =>
    intro ev pr h1 f hf hs hnp
    rw [List.foldl_cons]
    rcases List.mem_cons.mp hf with rfl | hf'
    · cases hc : pr.contains f with
      | true =>
        rw [pollStep_of_claimed c (ev, pr) f hc]
        have hf_ev : f ∈ ev := by
          have hmem : f ∈ pr := contains_true_iff.mp hc
          rw [h1] at hmem
          rcases List.mem_append.mp hmem with h' | h'
          · exact absurd h' hnp
          · exact h'
        exact pollFold_events_mono c gs _ f hf_ev
      | false =>
        rw [pollStep_of_stable c (ev, pr) f hc hs]
        exact pollFold_events_mono c gs _ f (List.mem_append_right _ (List.mem_singleton_self f))
    · cases hc : pr.contains g with
      | true =>
        rw [pollStep_of_claimed c (ev, pr) g hc]
        exact ih ev pr h1 f hf' hs hnp
      | false =>
        cases hsg : is_file_stable (c.probe g) with
        | true =>
          rw [pollStep_of_stable c (ev, pr) g hc hsg]
          exact ih _ _ (by rw [h1, List.append_assoc]) f hf' hs hnp
        | false =>
          rw [pollStep_of_unstable c (ev, pr) g hc hsg]
          exact ih ev pr h1 f hf' hs hnp

theorem pollCycle_processed (c : PollCycle) (processed : List String) :
    (pollCycle c processed).2 = processed ++ (pollCycle c processed).1 :=
  pollFold_inv c _ processed [] processed (by simp)

theorem pollCycle_nodup (c : PollCycle) (processed : List String) :
    (pollCycle c processed).1.Nodup ∧ ∀ x ∈ (pollCycle c processed).1, x ∉ processed :=
  pollFold_nodup c _ processed [] processed (by simp) List.nodup_nil (by simp)

theorem pollCycle_mem (c : PollCycle) (processed : List String) (f : String)
    (h : f ∈ (pollCycle c processed).1) :
    f ∈ c.listing ∧ strEnds f ".pcap" = true ∧ is_file_stable (c.probe f) = true ∧
      f ∉ processed := by
  rcases pollFold_mem_sub c _ ([], processed) f h with h' | ⟨h1, h2⟩
  · cases h'
  · rw [List.mem_filter] at h1
    exact ⟨h1.1, h1.2, h2, (pollCycle_nodup c processed).2 f h⟩

theorem pollCycle_complete (c : PollCycle) (processed : List String) (f : String)
    (h1 : f ∈ c.listing) (h2 : strEnds f ".pcap" = true)
    (h3 : is_file_stable (c.probe f) = true) (h4 : f ∉ processed) :
    f ∈ (pollCycle c processed).1 :=
  pollFold_complete c _ processed [] processed (by simp) f
    (List.mem_filter.mpr ⟨h1, h2⟩) h3 h4

theorem runCycles_processed (cs : List PollCycle) (p : List String) :
    (runCycles cs p).2 = p ++ (runCycles cs p).1 := by
  induction cs generalizing p with
  | nil => simp [runCycles]
  | cons c cs ih =>
    show (runCycles cs (pollCycle c p).2).2 =
      p ++ ((pollCycle c p).1 ++ (runCycles cs (pollCycle c p).2).1)
    rw [ih, pollCycle_processed, List.append_assoc]

theorem runCycles_fresh (cs : List PollCycle) (p : List String) (f : String)
    (h : f ∈ (runCycles cs p).1) : f ∉ p := by
  induction cs generalizing p with
  | nil => cases h
  | cons c cs ih =>
    rcases List.mem_append.mp h with h' | h'
    · exact (pollCycle_mem c p f h').2.2.2
    · intro hp
      exact ih _ h' (by rw [pollCycle_processed]; exact List.mem_append_left _ hp)

theorem runCycles_nodup (cs : List PollCycle) (p : List String) :
    (runCycles cs p).1.Nodup := by
  induction cs generalizing p with
  | nil => exact List.nodup_nil
  | cons c cs ih =>
    show ((pollCycle c p).1 ++ (runCycles cs (pollCycle c p).2).1).Nodup
    apply List.Nodup.append (pollCycle_nodup c p).1 (ih _)
    intro x hx hx'
    have hfr : x ∉ (pollCycle c p).2 := runCycles_fresh _ _ _ hx'
    rw [pollCycle_processed] at hfr
    exact hfr (List.mem_append_right _ hx)

theorem runCycles_mem_iff (cs : List PollCycle) (p : List String) (f : String) :
    f ∈ (runCycles cs p).1 ↔
      (f ∉ p ∧ ∃ c ∈ cs, f ∈ c.listing ∧ strEnds f ".pcap" = true ∧
        is_file_stable (c.probe f) = true) := by
  induction cs generalizing p with
  | nil => simp [runCycles]
  | cons c cs ih =>
    constructor
    · intro h
      refine ⟨runCycles_fresh _ _ _ h, ?_⟩
      rcases List.mem_append.mp h with h' | h'
      · rcases pollCycle_mem c p f h' with ⟨ha, hb, hc, _⟩
        exact ⟨c, List.mem_cons_self _ _, ha, hb, hc⟩
      · rcases (ih _).mp h' with ⟨_, c', hc', hcond⟩
        exact ⟨c', List.mem_cons_of_mem _ hc', hcond⟩
    · rintro ⟨hp, c', hc', hl, he, hs⟩
      by_cases hin : f ∈ (pollCycle c p).1
      · exact List.mem_append_left _ hin
      · apply List.mem_append_right
        apply (ih _).mpr
        constructor
        · rw [pollCycle_processed]
          intro hmem
          rcases List.mem_append.mp hmem with h' | h'
          · exact hp h'
          · exact hin h'
        · rcases List.mem_cons.mp hc' with rfl | hc''
          · exact absurd (pollCycle_complete c' p f hl he hs hp) hin
          · exact ⟨c', hc'', hl, he, hs⟩

/-!
Supporting lemmas: chunk-name suffixes and their ordering.
-/

theorem data_mk (s : List Char) : (String.mk s).data = s := rfl

theorem alphaSuffix_length (w k : Nat) : (alphaSuffix w k).length = w := by
  induction w generalizing k with
  | zero => rfl
  | succ w ih => simp [alphaSuffix, ih]

theorem alphaDigit_toNat : ∀ d, d < 26 → (alphaDigit d).toNat = 97 + d := by decide

theorem listLt_irrefl (l : List Char) : listLt l l = false := by
  induction l with
  | nil => rfl
  | cons a as ih => simp [listLt, ih]

theorem listLt_append_left (p xs ys : List Char) :
    listLt (p ++ xs) (p ++ ys) = listLt xs ys := by
  induction p with
  | nil => rfl
  | cons a as ih => simp [listLt, ih]

theorem listLt_append_last (xs ys : List Char) (x y : Char)
    (hlen : xs.length = ys.length) (h : listLt xs ys = true) :
    listLt (xs ++ [x]) (ys ++ [y]) = true := by
  induction xs generalizing ys with
  | nil =>
    cases ys with
    | nil => cases h
    | cons b bs => cases hlen
  | cons a as ih =>
    cases ys with
    | nil => cases hlen
    | cons b bs =>
      rcases listLt_cons_iff.mp h with hlt | ⟨heq, ht⟩
      · exact listLt_cons_iff.mpr (Or.inl hlt)
      · exact listLt_cons_iff.mpr (Or.inr ⟨heq, ih bs (by simpa using hlen) ht⟩)

theorem listLt_asymm {xs ys : List Char} (h : listLt xs ys = true) :
    listLt ys xs = false := by
  induction xs generalizing ys with
  | nil =>
    cases ys with
    | nil => cases h
    | cons b bs => rfl
  | cons a as ih =>
    cases ys with
    | nil => cases h
    | cons b bs =>
      rcases listLt_cons_iff.mp h with hlt | ⟨heq, ht⟩
      · simp [listLt, Nat.lt_asymm hlt, hlt]
      · simp [listLt, show ¬ b.toNat < a.toNat by omega, show ¬ a.toNat < b.toNat by omega,
          ih ht]

theorem alphaSuffix_lt (w : Nat) : ∀ k m : Nat, k < m → m < 26 ^ w →
    listLt (alphaSuffix w k) (alphaSuffix w m) = true := by
  induction w with
  | zero =>
    intro k m hkm hm
    simp at hm
    omega
  | succ w ih =>
    intro k m hkm hm
    have hmq : m / 26 < 26 ^ w := by
      rw [pow_succ] at hm
      omega
    show listLt (alphaSuffix w (k / 26) ++ [alphaDigit (k % 26)])
      (alphaSuffix w (m / 26) ++ [alphaDigit (m % 26)]) = true
    rcases Nat.lt_or_ge (k / 26) (m / 26) with hq | hq
    · exact listLt_append_last _ _ _ _
        (by rw [alphaSuffix_length, alphaSuffix_length]) (ih _ _ hq hmq)
    · have hqe : k / 26 = m / 26 := by omega
      have hd : k % 26 < m % 26 := by omega
      rw [hqe, listLt_append_left]
      simp [listLt, alphaDigit_toNat (k % 26) (by omega), alphaDigit_toNat (m % 26) (by omega),
        hd]

theorem strLt_chunkName (base : String) (k m : Nat) :
    strLt (chunkName base k) (chunkName base m) =
      listLt (alphaSuffix 4 k) (alphaSuffix 4 m) := by
  unfold strLt chunkName
  simp only [String.data_append, data_mk, List.append_assoc]
  rw [listLt_append_left, listLt_append_left]

theorem chunkName_lt_iff (base : String) (k m : Nat) (hk : k < 26 ^ 4) (hm : m < 26 ^ 4) :
    (strLt (chunkName base k) (chunkName base m) = true ↔ k < m) := by
  rw [strLt_chunkName]
  constructor
  · intro h
    by_contra hn
    rcases Nat.lt_or_ge m k with hmk | hmk
    · have h' := alphaSuffix_lt 4 m k hmk hk
      rw [listLt_asymm h'] at h
      cases h
    · have hkm : k = m := by omega
      rw [hkm, listLt_irrefl] at h
      cases h
  · intro h
    exact alphaSuffix_lt 4 k m h hm

theorem alphaSuffix_chars (w : Nat) : ∀ k, ∀ c ∈ alphaSuffix w k,
    97 ≤ c.toNat ∧ c.toNat ≤ 122 := by
  induction w with
  | zero => intro k c hc; cases hc
  | succ w ih =>
    intro k c hc
    rcases List.mem_append.mp hc with h | h
    · exact ih _ c h
    · rw [List.mem_singleton] at h
      subst h
      rw [alphaDigit_toNat (k % 26) (by omega)]
      omega

theorem chunkName_not_ndjson (base : String) (k : Nat) :
    strEnds (chunkName base k) ".ndjson" = false := by
  have hdata : (chunkName base k).data =
      base.data ++ (".chunk_".data ++ alphaSuffix 4 k) := by
    simp [chunkName, String.data_append, data_mk]
  unfold strEnds
  rw [hdata]
  have hl : (base.data ++ (".chunk_".data ++ alphaSuffix 4 k)).length -
      (".ndjson".data).length = base.data.length + 4 := by
    simp only [List.length_append, alphaSuffix_length]
    show base.data.length + (7 + 4) - 7 = base.data.length + 4
    omega
  rw [hl, List.drop_append 4]
  rw [show (".chunk_".data) = ['.', 'c', 'h', 'u', 'n', 'k', '_'] from rfl]
  show ((['n', 'k', '_'] ++ alphaSuffix 4 k) == ".ndjson".data) = false
  rfl

/-!
Supporting lemmas: enumerated lists filtered on one component.
-/

theorem enumFrom_filter_snd (m : String → Bool) (xs : List String) :
    ∀ i, (((List.enumFrom i xs).filter (fun p => m p.2)).map Prod.snd) = xs.filter m := by
  induction xs with
  | nil => intro i; rfl
  | cons x xs ih =>
    intro i
    cases hm : m x with
    | true => simp [List.enumFrom, List.filter_cons, hm, ih]
    | false => simp [List.enumFrom, List.filter_cons, hm, ih]

theorem enum_filter_snd (m : String → Bool) (xs : List String) :
    ((xs.enum.filter (fun p => m p.2)).map Prod.snd) = xs.filter m :=
  enumFrom_filter_snd m xs 0

theorem enum_filter_fst_length (xs : List String) (q : Nat → Bool) :
    ((xs.enum.filter (fun p => q p.1)).map Prod.snd).length =
      ((List.range xs.length).filter q).length := by
  rw [List.length_map, ← List.countP_eq_length_filter, ← List.countP_eq_length_filter,
    ← List.enum_map_fst xs, List.countP_map]
  rfl

/-- Claim C3: for one base's undistributed chunks, distribution is a pure
function of the sorted chunk list (permutation-invariant) and assigns each
chunk to exactly one of the 4 lanes.  Contiguous split
(`chunk_distributor.distribute_chunks`, re-stated inline in
`main.distribute_chunks_for_base`): lane sizes are `n / 4 + 1` for the first
`n % 4` lanes and `n / 4` for the rest — pairwise differing by at most 1 and
summing to `n` — and the concatenation of the four slices is exactly the
sorted list.  Round robin (the move loop of `chunk_distributor.main`): the
chunk at sorted position `idx` goes to lane `idx % 4`, so lane `i` receives
exactly `⌈(n - i)/4⌉ = (n - i + 3) / 4` chunks. -/
theorem C3_distribution_policies (l : List String) :
    ((distribute_chunks l).map List.length =
      [laneSize l.length 0, laneSize l.length 1, laneSize l.length 2, laneSize l.length 3]) ∧
    (∀ i j, i < 4 → j < 4 → laneSize l.length i ≤ laneSize l.length j + 1) ∧
    (laneSize l.length 0 + laneSize l.length 1 + laneSize l.length 2 + laneSize l.length 3
      = l.length) ∧
    ((distribute_chunks l).flatten = sortStr l) ∧
    ((distribute_chunks l).flatten.Perm l) ∧
    (∀ l', l.Perm l' → distribute_chunks l = distribute_chunks l') ∧
    (∀ (base : String) (st : DistState) (i : Nat),
      (chunk_distributor_base (fun _ => true) base st).lanes i =
        st.lanes i ++
          (((sortStr ((st.staging.filter (fun f => strStarts f (base ++ ".chunk_"))).filter
            (fun f => !st.distLedger.contains f))).enum.filter
              (fun p => p.1 % 4 == i)).map Prod.snd)) ∧
    (∀ (base : String) (st : DistState) (i : Nat), i < 4 →
      ((chunk_distributor_base (fun _ => true) base st).lanes i).length =
        (st.lanes i).length +
          ((sortStr ((st.staging.filter (fun f => strStarts f (base ++ ".chunk_"))).filter
            (fun f => !st.distLedger.contains f))).length - i + 3) / 4) := by
  refine ⟨?_, ?_, ?_, ?_, ?_, ?_, ?_, ?_⟩
  · have h := contiguous_sizes (sortStr l)
    rw [length_sortStr] at h
    exact h
  · intro i j hi hj
    simp only [laneSize_eq]
    omega
  · simp only [laneSize_eq]
    omega
  · have h := contiguous_join (sortStr l)
    exact h
  · show (contiguousBatches (sortStr l)).flatten.Perm l
    rw [contiguous_join (sortStr l)]
    exact List.perm_insertionSort StrLeP l
  · intro l' h
    unfold distribute_chunks
    rw [sortStr_eq_of_perm h]
  · intro base st i
    unfold chunk_distributor_base
    rw [distFold_lanes]
    congr 1
  · intro base st i hi
    unfold chunk_distributor_base
    rw [distFold_lanes, List.length_append]
    congr 1
    simp only [Bool.true_and]
    rw [enum_filter_fst_length
      (sortStr ((st.staging.filter (fun f => strStarts f (base ++ ".chunk_"))).filter
        (fun f => !st.distLedger.contains f))) (fun j => j % 4 == i)]
    rw [length_sortStr, rrCount_eq _ i hi]


/-!
Supporting lemmas: the move loop of `main.distribute_chunks_for_base`.
-/

theorem moveFold1_ledger (m : String → Bool) (lane : Nat) :
    ∀ (ls : List String) (acc : DistState × List String),
      ((ls.foldl (moveChunk m lane) acc).1).distLedger = acc.1.distLedger := by
  intro ls
  induction ls with
  | nil => intro acc; rfl
  | cons x xs ih =>
    intro acc
    rw [List.foldl_cons, ih]
    cases hm : m x with
    | true => simp [moveChunk, hm]
    | false => simp [moveChunk, hm]

theorem moveFold1_moved (m : String → Bool) (lane : Nat) :
    ∀ (ls : List String) (acc : DistState × List String),
      (ls.foldl (moveChunk m lane) acc).2 = acc.2 ++ ls.filter m := by
  intro ls
  induction ls with
  | nil => intro acc; simp
  | cons x xs ih =>
    intro acc
    rw [List.foldl_cons, ih]
    cases hm : m x with
    | true => simp [moveChunk, hm, List.filter_cons]
    | false => simp [moveChunk, hm, List.filter_cons]

theorem moveFold1_staging_keep (m : String → Bool) (lane : Nat) (f : String)
    (hm : m f = false) :
    ∀ (ls : List String) (acc : DistState × List String),
      (f ∈ ((ls.foldl (moveChunk m lane) acc).1).staging ↔ f ∈ acc.1.staging) := by
  intro ls
  induction ls with
  | nil => intro acc; rfl
  | cons x xs ih =>
    intro acc
    rw [List.foldl_cons, ih]
    cases hmx : m x with
    | false => simp [moveChunk, hmx]
    | true =>
      have hne : f ≠ x := by
        intro h; rw [h] at hm; rw [hm] at hmx; cases hmx
      simp only [moveChunk, hmx, if_true]
      exact List.mem_erase_of_ne hne

theorem moveFold2_ledger (m : String → Bool) :
    ∀ (bs : List (Nat × List String)) (acc : DistState × List String),
      ((bs.foldl (fun a p => p.2.foldl (moveChunk m p.1) a) acc).1).distLedger =
        acc.1.distLedger := by
  intro bs
  induction bs with
  | nil => intro acc; rfl
  | cons q qs ih =>
    intro acc
    rw [List.foldl_cons, ih, moveFold1_ledger]

theorem moveFold2_moved (m : String → Bool) :
    ∀ (bs : List (Nat × List String)) (acc : DistState × List String),
      (bs.foldl (fun a p => p.2.foldl (moveChunk m p.1) a) acc).2 =
        acc.2 ++ ((bs.map Prod.snd).flatten.filter m) := by
  intro bs
  induction bs with
  | nil => intro acc; simp
  | cons q qs ih =>
    intro acc
    rw [List.foldl_cons, ih, moveFold1_moved]
    simp [List.filter_append]

theorem moveFold2_staging_keep (m : String → Bool) (f : String) (hm : m f = false) :
    ∀ (bs : List (Nat × List String)) (acc : DistState × List String),
      (f ∈ ((bs.foldl (fun a p => p.2.foldl (moveChunk m p.1) a) acc).1).staging ↔
        f ∈ acc.1.staging) := by
  intro bs
  induction bs with
  | nil => intro acc; rfl
  | cons q qs ih =>
    intro acc
    rw [List.foldl_cons, ih, moveFold1_staging_keep m q.1 f hm]

/-- Claim C5 (amended): in `chunk_distributor.main`, every undistributed chunk
whose move succeeds ends up in its round-robin lane, leaves staging, and has
its identifier appended to the distribution ledger — and the ledger gains
exactly the successfully moved chunks, so an identifier is appended only
after its move succeeded; a chunk whose move fails stays in staging with its
identifier not appended.  The pipeline's `main.distribute_chunks_for_base`,
however, maintains no distribution ledger at all: it moves the staged chunks
of the base and returns the successfully moved ones, leaving `batch.log`
untouched, and a chunk whose move fails likewise remains in staging. -/
theorem C5_move_then_ledger (moveOk : String → Bool) (base : String) (st : DistState) :
    ((chunk_distributor_base moveOk base st).distLedger =
      st.distLedger ++
        (sortStr ((st.staging.filter (fun f => strStarts f (base ++ ".chunk_"))).filter
          (fun f => !st.distLedger.contains f))).filter moveOk) ∧
    (∀ f, f ∈ (chunk_distributor_base moveOk base st).distLedger →
      f ∈ st.distLedger ∨ moveOk f = true) ∧
    (∀ f ∈ sortStr ((st.staging.filter (fun f => strStarts f (base ++ ".chunk_"))).filter
        (fun f => !st.distLedger.contains f)), moveOk f = false →
      f ∈ (chunk_distributor_base moveOk base st).staging ∧
        f ∉ (chunk_distributor_base moveOk base st).distLedger) ∧
    (∀ p ∈ (sortStr ((st.staging.filter (fun f => strStarts f (base ++ ".chunk_"))).filter
        (fun f => !st.distLedger.contains f))).enum, moveOk p.2 = true →
      p.2 ∈ (chunk_distributor_base moveOk base st).lanes (p.1 % 4) ∧
        p.2 ∈ (chunk_distributor_base moveOk base st).distLedger ∧
        (st.staging.Nodup → p.2 ∉ (chunk_distributor_base moveOk base st).staging)) ∧
    (((distribute_chunks_for_base moveOk base st).1).distLedger = st.distLedger) ∧
    ((distribute_chunks_for_base moveOk base st).2 =
      (sortStr (st.staging.filter (fun f => strStarts f (base ++ ".chunk_")))).filter
        moveOk) ∧
    (∀ f ∈ st.staging, moveOk f = false →
      f ∈ ((distribute_chunks_for_base moveOk base st).1).staging) := by
  have hledger : (chunk_distributor_base moveOk base st).distLedger =
      st.distLedger ++
        (sortStr ((st.staging.filter (fun f => strStarts f (base ++ ".chunk_"))).filter
          (fun f => !st.distLedger.contains f))).filter moveOk := by
    unfold chunk_distributor_base
    rw [distFold_ledger, enum_filter_snd]
  refine ⟨hledger, ?_, ?_, ?_, ?_, ?_, ?_⟩
  · intro f hf
    rw [hledger] at hf
    rcases List.mem_append.mp hf with h | h
    · exact Or.inl h
    · exact Or.inr (List.mem_filter.mp h).2
  · intro f hf hm
    constructor
    · have hst : f ∈ st.staging := by
        have h1 := mem_sortStr.mp hf
        exact (List.mem_filter.mp (List.mem_filter.mp h1).1).1
      unfold chunk_distributor_base
      exact (distFold_staging_keep moveOk _ st f hm).mpr hst
    · rw [hledger]
      intro hmem
      rcases List.mem_append.mp hmem with h | h
      · have h1 := mem_sortStr.mp hf
        have h2 := (List.mem_filter.mp h1).2
        exact absurd h (contains_false_iff.mp (by simpa using h2))
      · rw [(List.mem_filter.mp h).2] at hm
        cases hm
  · intro p hp hm
    refine ⟨?_, ?_, ?_⟩
    · unfold chunk_distributor_base
      rw [distFold_lanes]
      apply List.mem_append_right
      apply List.mem_map_of_mem Prod.snd
      apply List.mem_filter.mpr
      refine ⟨hp, ?_⟩
      simp [hm]
    · rw [hledger]
      apply List.mem_append_right
      apply List.mem_filter.mpr
      refine ⟨?_, hm⟩
      have := List.mem_map_of_mem Prod.snd hp
      rwa [List.enum_map_snd] at this
    · intro hnd
      unfold chunk_distributor_base
      exact distFold_staging_gone moveOk _ st hnd p hp hm
  · unfold distribute_chunks_for_base
    cases he : (sortStr (st.staging.filter
        (fun f => strStarts f (base ++ ".chunk_")))).isEmpty with
    | true => rw [if_pos he]
    | false =>
      rw [if_neg (by simp [he])]
      rw [moveFold2_ledger]
  · unfold distribute_chunks_for_base
    cases he : (sortStr (st.staging.filter
        (fun f => strStarts f (base ++ ".chunk_")))).isEmpty with
    | true =>
      rw [if_pos he, List.isEmpty_iff.mp he]
      rfl
    | false =>
      rw [if_neg (by simp [he])]
      rw [moveFold2_moved, List.enum_map_snd, contiguous_join]
      rfl
  · intro f hf hm
    unfold distribute_chunks_for_base
    cases he : (sortStr (st.staging.filter
        (fun f => strStarts f (base ++ ".chunk_")))).isEmpty with
    | true =>
      show f ∈ (if (sortStr (List.filter (fun f => strStarts f (base ++ ".chunk_"))
        st.staging)).isEmpty = true then (st, ([] : List String))
          else List.foldl (fun acc p => List.foldl (moveChunk moveOk p.1) acc p.2) (st, [])
            (contiguousBatches (sortStr (List.filter (fun f => strStarts f
              (base ++ ".chunk_")) st.staging))).enum).1.staging
      rw [if_pos he]
      exact hf
    | false =>
      rw [if_neg (by simp [he])]
      exact (moveFold2_staging_keep moveOk f hm _ _).mpr hf

/-- Claim C5 (counterexample): on the pipeline path
`main.distribute_chunks_for_base`, the single staged chunk of base `cap` is
moved successfully (it is returned in the moved list), yet its identifier is
not appended to the distribution ledger — refuting, at this input, the claim
that on every distribution path the chunk's identifier is appended to the
distribution ledger once the move has succeeded. -/
theorem C5_counterexample :
    (distribute_chunks_for_base (fun _ => true) "cap"
      ⟨["cap.chunk_aaaa"], fun _ => [], []⟩).2 = ["cap.chunk_aaaa"] ∧
    "cap.chunk_aaaa" ∉
      ((distribute_chunks_for_base (fun _ => true) "cap"
        ⟨["cap.chunk_aaaa"], fun _ => [], []⟩).1).distLedger := by
  decide

theorem C5_witness :
    ("x.chunk_aaab" ∈ sortStr (((["x.chunk_aaaa", "x.chunk_aaab"] : List String).filter
      (fun f => strStarts f ("x" ++ ".chunk_"))).filter
      (fun f => !([] : List String).contains f))) ∧
    ((fun f => f == "x.chunk_aaaa") "x.chunk_aaab" = false) ∧
    ("x.chunk_aaab" ∈ (chunk_distributor_base (fun f => f == "x.chunk_aaaa") "x"
        ⟨["x.chunk_aaaa", "x.chunk_aaab"], fun _ => [], []⟩).staging ∧
      "x.chunk_aaab" ∉ (chunk_distributor_base (fun f => f == "x.chunk_aaaa") "x"
        ⟨["x.chunk_aaaa", "x.chunk_aaab"], fun _ => [], []⟩).distLedger) ∧
    ("x.chunk_aaaa" ∈ (chunk_distributor_base (fun f => f == "x.chunk_aaaa") "x"
        ⟨["x.chunk_aaaa", "x.chunk_aaab"], fun _ => [], []⟩).lanes (0 % 4)) ∧
    (((distribute_chunks_for_base (fun f => f == "x.chunk_aaaa") "x"
        ⟨["x.chunk_aaaa", "x.chunk_aaab"], fun _ => [], []⟩).1).distLedger = []) :=
  ⟨by decide, by decide,
    (C5_move_then_ledger (fun f => f == "x.chunk_aaaa") "x"
      ⟨["x.chunk_aaaa", "x.chunk_aaab"], fun _ => [], []⟩).2.2.1 "x.chunk_aaab"
      (by decide) (by decide),
    ((C5_move_then_ledger (fun f => f == "x.chunk_aaaa") "x"
      ⟨["x.chunk_aaaa", "x.chunk_aaab"], fun _ => [], []⟩).2.2.2.1 (0, "x.chunk_aaaa")
      (by decide) (by decide)).1,
    (C5_move_then_ledger (fun f => f == "x.chunk_aaaa") "x"
      ⟨["x.chunk_aaaa", "x.chunk_aaab"], fun _ => [], []⟩).2.2.2.2.1⟩

theorem mem_filter_not_iff {l : List String} {p : String → Bool} {a : String} (ha : a ∈ l) :
    a ∉ l.filter p ↔ p a = false := by
  rw [List.mem_filter]
  simp [ha]

/-- Claim C1 (amended): for the standalone coordinator
(`pcap_es_uploader.process_batch_dir`), a chunk file present at the start of
the run is deleted if and only if it matched the coordinator's glob, its name
was not already in the lane's upload ledger, its upload succeeded, and its
removal succeeded — in particular a deleted chunk's filename is always in
the final ledger, and ledger entries are never removed.  The converse of the
claim fails: a chunk whose name was already ledgered at the start is left in
place, as is one whose post-upload removal fails.  On the pipeline's
per-base path (`main.upload_chunks_for_base`), no chunk file is ever
deleted, while the ledger still gains the names of successfully uploaded
chunks. -/
theorem C1_upload_delete_ledger (u rm : String → Bool) (st : LaneState) :
    (∀ f ∈ st.files,
      (f ∉ ((process_batch_dir u rm st).1).files ↔
        (strEnds f ".ndjson" = true ∧ st.ledger.contains f = false ∧
          u f = true ∧ rm f = true))) ∧
    (∀ f ∈ st.files, f ∉ ((process_batch_dir u rm st).1).files →
      f ∈ ((process_batch_dir u rm st).1).ledger) ∧
    (∀ f ∈ st.ledger, f ∈ ((process_batch_dir u rm st).1).ledger) ∧
    (∀ (base : String) (stl : LaneState),
      (upload_lane_for_base u base stl).files = stl.files) ∧
    (∀ (base : String) (stl : LaneState) (f : String),
      f ∈ (upload_lane_for_base u base stl).ledger ↔
        f ∈ stl.ledger ∨ (f ∈ stl.files ∧ strStarts f (base ++ ".chunk_") = true ∧
          u f = true)) := by
  have hiff : ∀ f ∈ st.files,
      (f ∉ ((process_batch_dir u rm st).1).files ↔
        (strEnds f ".ndjson" = true ∧ st.ledger.contains f = false ∧
          u f = true ∧ rm f = true)) := by
    intro f hf
    show f ∉ st.files.filter (fun g =>
      !((((sortStr (st.files.filter (fun x => strEnds x ".ndjson"))).filter
        (fun x => !st.ledger.contains x)).filter u).filter rm).contains g) ↔ _
    rw [mem_filter_not_iff hf, Bool.not_eq_false', contains_true_iff]
    simp only [List.mem_filter, mem_sortStr, contains_false_iff, Bool.not_eq_true', hf,
      true_and]
    tauto
  refine ⟨hiff, ?_, ?_, ?_, ?_⟩
  · intro f hf hnot
    rcases (hiff f hf).mp hnot with ⟨hends, hnl, hu, _⟩
    show f ∈ st.ledger ++ ((sortStr (st.files.filter (fun x => strEnds x ".ndjson"))).filter
      (fun x => !st.ledger.contains x)).filter u
    apply List.mem_append_right
    apply List.mem_filter.mpr
    refine ⟨List.mem_filter.mpr ⟨?_, by rw [hnl]; rfl⟩, hu⟩
    exact mem_sortStr.mpr (List.mem_filter.mpr ⟨hf, hends⟩)
  · intro f hf
    exact List.mem_append_left _ hf
  · intro base stl
    rfl
  · intro base stl f
    show f ∈ stl.ledger ++
      (sortStr (stl.files.filter (fun g => strStarts g (base ++ ".chunk_")))).filter u ↔ _
    rw [List.mem_append, List.mem_filter, mem_sortStr, List.mem_filter]
    tauto

/-- Claim C1 (counterexample): on the pipeline's per-base upload path
(`main.upload_chunks_for_base`), the single chunk of base `cap` uploads
successfully, so after the run the lane's upload ledger contains its
filename — yet the chunk file has not been deleted, refuting the claimed
deleted-iff-ledgered equivalence at this input. -/
theorem C1_counterexample :
    ¬ (∀ f ∈ (["cap.chunk_aaaa"] : List String),
        (f ∉ (upload_lane_for_base (fun _ => true) "cap"
            ⟨["cap.chunk_aaaa"], []⟩).files ↔
          f ∈ (upload_lane_for_base (fun _ => true) "cap"
            ⟨["cap.chunk_aaaa"], []⟩).ledger)) := by
  decide

theorem C1_witness :
    ("a.ndjson" ∈ (["a.ndjson", "b.ndjson"] : List String)) ∧
    ("a.ndjson" ∉ ((process_batch_dir (fun _ => true) (fun _ => true)
        ⟨["a.ndjson", "b.ndjson"], ["b.ndjson"]⟩).1).files ↔
      (strEnds "a.ndjson" ".ndjson" = true ∧
        (["b.ndjson"] : List String).contains "a.ndjson" = false ∧
        (fun _ => true) "a.ndjson" = true ∧ (fun _ => true) "a.ndjson" = true)) ∧
    ("b.ndjson" ∈ (["b.ndjson"] : List String) →
      "b.ndjson" ∈ ((process_batch_dir (fun _ => true) (fun _ => true)
        ⟨["a.ndjson", "b.ndjson"], ["b.ndjson"]⟩).1).ledger) ∧
    ("c.chunk_aaaa" ∈ (upload_lane_for_base (fun _ => true) "c"
        ⟨["c.chunk_aaaa"], []⟩).ledger ↔
      "c.chunk_aaaa" ∈ ([] : List String) ∨
        ("c.chunk_aaaa" ∈ (["c.chunk_aaaa"] : List String) ∧
          strStarts "c.chunk_aaaa" ("c" ++ ".chunk_") = true ∧
          (fun _ => true) "c.chunk_aaaa" = true)) :=
  ⟨by decide,
    (C1_upload_delete_ledger (fun _ => true) (fun _ => true)
      ⟨["a.ndjson", "b.ndjson"], ["b.ndjson"]⟩).1 "a.ndjson" (by decide),
    (C1_upload_delete_ledger (fun _ => true) (fun _ => true)
      ⟨["a.ndjson", "b.ndjson"], ["b.ndjson"]⟩).2.2.1 "b.ndjson",
    (C1_upload_delete_ledger (fun _ => true) (fun _ => true)
      ⟨["a.ndjson", "b.ndjson"], ["b.ndjson"]⟩).2.2.2.2 "c" ⟨["c.chunk_aaaa"], []⟩
      "c.chunk_aaaa"⟩

/-- Claim C2 (amended): in `main.process_pcap_file`, a failure of Convert, of
Split, or of Distribute (an empty moved list) halts the pipeline for that
file immediately — no later stage runs and the original source file is not
deleted.  The Upload stage, however, reports no failure to the state
machine: once distribution returns a non-empty moved list, the trace and the
fate of the source file are the same for every per-chunk upload outcome, and
the source file is deleted exactly when the final `os.remove` succeeds, even
if every upload failed. -/
theorem C2_stage_failures (convertOk toolOk : Bool) (n b : Nat)
    (moveOk uploadOk uploadOk2 : String → Bool) (removeSourceOk : Bool) (base : String)
    (w : World) :
    (convertOk = false →
      process_pcap_file convertOk toolOk n b moveOk uploadOk removeSourceOk base w =
        (w, ⟨false, false, false, false⟩)) ∧
    (convertOk = true → toolOk = false →
      process_pcap_file convertOk toolOk n b moveOk uploadOk removeSourceOk base w =
        (w, ⟨true, false, false, false⟩)) ∧
    (convertOk = true → toolOk = true →
      (distribute_chunks_for_base moveOk base
        { w.dist with staging := w.dist.staging ++ splitChunkNames base n b }).2 = [] →
      ((process_pcap_file convertOk toolOk n b moveOk uploadOk removeSourceOk base w).2 =
          ⟨true, true, false, false⟩ ∧
        ((process_pcap_file convertOk toolOk n b moveOk uploadOk removeSourceOk base
          w).1).sourcePresent = w.sourcePresent)) ∧
    ((process_pcap_file convertOk toolOk n b moveOk uploadOk removeSourceOk base
        w).2.sourceDeleted = true →
      removeSourceOk = true ∧
        (process_pcap_file convertOk toolOk n b moveOk uploadOk removeSourceOk base
          w).2.uploadRan = true) ∧
    ((process_pcap_file convertOk toolOk n b moveOk uploadOk removeSourceOk base
        w).2.uploadRan = false →
      ((process_pcap_file convertOk toolOk n b moveOk uploadOk removeSourceOk base
        w).1).sourcePresent = w.sourcePresent) ∧
    ((process_pcap_file convertOk toolOk n b moveOk uploadOk removeSourceOk base w).2 =
      (process_pcap_file convertOk toolOk n b moveOk uploadOk2 removeSourceOk base w).2) ∧
    (((process_pcap_file convertOk toolOk n b moveOk uploadOk removeSourceOk base
        w).1).sourcePresent =
      ((process_pcap_file convertOk toolOk n b moveOk uploadOk2 removeSourceOk base
        w).1).sourcePresent) := by
  cases convertOk with
  | false => simp [process_pcap_file]
  | true =>
    cases toolOk with
    | false => simp [process_pcap_file]
    | true =>
      cases hre : (distribute_chunks_for_base moveOk base
          { w.dist with staging := w.dist.staging ++ splitChunkNames base n b }).2 with
      | nil =>
        simp [process_pcap_file, hre]
      | cons x xs =>
        cases removeSourceOk with
        | true => simp [process_pcap_file, hre]
        | false => simp [process_pcap_file, hre]

/-- Claim C2 (counterexample): with every upload failing (the upload oracle
is constantly false — the chunk of base `cap` sits in lane 0 and its lane
ledger stays empty), `process_pcap_file` still deletes the original source
file, refuting the claim that an Upload-stage failure halts the pipeline and
preserves the source. -/
theorem C2_counterexample :
    ((process_pcap_file true true 1000 1000 (fun _ => true) (fun _ => false) true "cap"
        ⟨true, ⟨[], fun _ => [], []⟩, fun _ => []⟩).2).sourceDeleted = true ∧
    ((process_pcap_file true true 1000 1000 (fun _ => true) (fun _ => false) true "cap"
        ⟨true, ⟨[], fun _ => [], []⟩, fun _ => []⟩).1).sourcePresent = false ∧
    "cap.chunk_aaaa" ∈ ((process_pcap_file true true 1000 1000 (fun _ => true)
        (fun _ => false) true "cap"
        ⟨true, ⟨[], fun _ => [], []⟩, fun _ => []⟩).1).dist.lanes 0 ∧
    ((process_pcap_file true true 1000 1000 (fun _ => true) (fun _ => false) true "cap"
        ⟨true, ⟨[], fun _ => [], []⟩, fun _ => []⟩).1).upLedgers 0 = [] := by
  decide

theorem C2_witness :
    (process_pcap_file false true 0 1000 (fun _ => true) (fun _ => true) true "cap"
        ⟨true, ⟨[], fun _ => [], []⟩, fun _ => []⟩ =
      (⟨true, ⟨[], fun _ => [], []⟩, fun _ => []⟩, ⟨false, false, false, false⟩)) ∧
    ((distribute_chunks_for_base (fun _ => true) "cap"
        { (⟨[], fun _ => [], []⟩ : DistState) with
          staging := ([] : List String) ++ splitChunkNames "cap" 0 1000 }).2 = []) ∧
    ((process_pcap_file true true 0 1000 (fun _ => true) (fun _ => true) true "cap"
        ⟨true, ⟨[], fun _ => [], []⟩, fun _ => []⟩).2 = ⟨true, true, false, false⟩) :=
  ⟨(C2_stage_failures false true 0 1000 (fun _ => true) (fun _ => true) (fun _ => true)
      true "cap" ⟨true, ⟨[], fun _ => [], []⟩, fun _ => []⟩).1 rfl,
    by decide,
    ((C2_stage_failures true true 0 1000 (fun _ => true) (fun _ => true) (fun _ => true)
      true "cap" ⟨true, ⟨[], fun _ => [], []⟩, fun _ => []⟩).2.2.1 rfl rfl (by decide)).1⟩

/-- Claim C4 (code evaluation): the standalone coordinator's glob is
`*` + `CHUNK_EXT` with `CHUNK_EXT = ".ndjson"`, but no chunk file the
splitter produces is named with that suffix — `<base>.chunk_<suffix>` never
ends in `".ndjson"` — so `process_batch_dir` never dispatches any splitter
chunk: at the failing input, a lane holding the chunk `cap.chunk_aaaa` with
an empty upload ledger, it dispatches nothing at all. -/
theorem C4_glob_never_matches_chunks :
    (∀ (base : String) (k : Nat) (u rm : String → Bool) (st : LaneState),
      chunkName base k ∉ (process_batch_dir u rm st).2) ∧
    ((process_batch_dir (fun _ => true) (fun _ => true) ⟨["cap.chunk_aaaa"], []⟩).2
      = []) ∧
    ("cap.chunk_aaaa" = chunkName "cap" 0) := by
  refine ⟨?_, by decide, by decide⟩
  intro base k u rm st hmem
  have hmem' : chunkName base k ∈
      ((sortStr (st.files.filter (fun f => strEnds f ".ndjson"))).filter
        (fun f => !st.ledger.contains f)) := hmem
  have h1 := (List.mem_filter.mp hmem').1
  have h2 := (List.mem_filter.mp (mem_sortStr.mp h1)).2
  rw [chunkName_not_ndjson] at h2
  cases h2

theorem ne_true_of_false {b : Bool} (h : b = false) : ¬ b = true :=
  fun hx => Bool.false_ne_true (h ▸ hx)

theorem split_ndjson_file_fail (toolOk removeOk : String → Bool) (b : Nat) (base : String)
    (n : Nat) (st : SplitState) (h : toolOk base = false) :
    split_ndjson_file toolOk removeOk b base n st = (st, false) := by
  unfold split_ndjson_file
  rw [if_neg (ne_true_of_false h)]

theorem split_ndjson_file_ok_rm (toolOk removeOk : String → Bool) (b : Nat) (base : String)
    (n : Nat) (st : SplitState) (h : toolOk base = true) (hro : removeOk base = true) :
    split_ndjson_file toolOk removeOk b base n st =
      (⟨st.artifacts.filter (fun a => !(a.1 == base)),
        st.staging ++ splitChunkNames base n b, st.splitLog⟩, true) := by
  unfold split_ndjson_file
  rw [if_pos h]
  show ((if removeOk base = true then
      (⟨st.artifacts.filter (fun a => !(a.1 == base)),
        st.staging ++ splitChunkNames base n b, st.splitLog⟩ : SplitState)
    else ⟨st.artifacts, st.staging ++ splitChunkNames base n b, st.splitLog⟩), true) = _
  rw [if_pos hro]

theorem split_ndjson_file_ok_normv (toolOk removeOk : String → Bool) (b : Nat)
    (base : String) (n : Nat) (st : SplitState) (h : toolOk base = true)
    (hro : removeOk base = false) :
    split_ndjson_file toolOk removeOk b base n st =
      (⟨st.artifacts, st.staging ++ splitChunkNames base n b, st.splitLog⟩, true) := by
  unfold split_ndjson_file
  rw [if_pos h]
  show ((if removeOk base = true then
      (⟨st.artifacts.filter (fun a => !(a.1 == base)),
        st.staging ++ splitChunkNames base n b, st.splitLog⟩ : SplitState)
    else ⟨st.artifacts, st.staging ++ splitChunkNames base n b, st.splitLog⟩), true) = _
  rw [if_neg (ne_true_of_false hro)]

theorem splitterStep_logged (toolOk removeOk : String → Bool) (b : Nat)
    (log0 : List String) (st : SplitState) (base : String) (n : Nat)
    (h : log0.contains base = true) :
    splitterStep toolOk removeOk b log0 st (base, n) = st := by
  unfold splitterStep
  rw [if_pos h]

theorem splitterStep_toolfail (toolOk removeOk : String → Bool) (b : Nat)
    (log0 : List String) (st : SplitState) (base : String) (n : Nat)
    (hc : log0.contains base = false) (ht : toolOk base = false) :
    splitterStep toolOk removeOk b log0 st (base, n) = st := by
  unfold splitterStep
  rw [if_neg (ne_true_of_false hc), split_ndjson_file_fail toolOk removeOk b base n st ht]
  rfl

theorem splitterStep_success_rm (toolOk removeOk : String → Bool) (b : Nat)
    (log0 : List String) (st : SplitState) (base : String) (n : Nat)
    (hc : log0.contains base = false) (ht : toolOk base = true)
    (hro : removeOk base = true) :
    splitterStep toolOk removeOk b log0 st (base, n) =
      ⟨st.artifacts.filter (fun a => !(a.1 == base)),
        st.staging ++ splitChunkNames base n b, st.splitLog ++ [base]⟩ := by
  unfold splitterStep
  rw [if_neg (ne_true_of_false hc),
    split_ndjson_file_ok_rm toolOk removeOk b base n st ht hro]
  rfl

theorem splitterStep_success_normv (toolOk removeOk : String → Bool) (b : Nat)
    (log0 : List String) (st : SplitState) (base : String) (n : Nat)
    (hc : log0.contains base = false) (ht : toolOk base = true)
    (hro : removeOk base = false) :
    splitterStep toolOk removeOk b log0 st (base, n) =
      ⟨st.artifacts, st.staging ++ splitChunkNames base n b, st.splitLog ++ [base]⟩ := by
  unfold splitterStep
  rw [if_neg (ne_true_of_false hc),
    split_ndjson_file_ok_normv toolOk removeOk b base n st ht hro]
  rfl

theorem splitterFold_id (toolOk removeOk : String → Bool) (b : Nat) (log0 : List String) :
    ∀ (l : List (String × Nat)) (s : SplitState), (∀ a ∈ l, log0.contains a.1 = true) →
      l.foldl (splitterStep toolOk removeOk b log0) s = s := by
  intro l
  induction l with
  | nil => intro s _; rfl
  | cons a t ih =>
    intro s hall
    rw [List.foldl_cons,
      show splitterStep toolOk removeOk b log0 s a = s from
        splitterStep_logged toolOk removeOk b log0 s a.1 a.2
          (hall a (List.mem_cons_self _ _))]
    exact ih s (fun x hx => hall x (List.mem_cons_of_mem _ hx))

/-- Claim C6: the splitter skips a base already in the split ledger read at
startup (and a run over a directory of fully ledgered bases changes
nothing); when the split subprocess fails, nothing is recorded and the
artifact stays in place; when it succeeds, the base is appended to the split
ledger, the chunks appear in staging, and the source artifact is removed
exactly when its `os.remove` succeeds — so the artifact is deleted only if
the split succeeded. -/
theorem C6_splitter_idempotent (toolOk removeOk : String → Bool) (b : Nat)
    (log0 : List String) (st : SplitState) (base : String) (n : Nat) :
    (log0.contains base = true → splitterStep toolOk removeOk b log0 st (base, n) = st) ∧
    (toolOk base = false → splitterStep toolOk removeOk b log0 st (base, n) = st) ∧
    (log0.contains base = false → toolOk base = true →
      (splitterStep toolOk removeOk b log0 st (base, n)).splitLog =
          st.splitLog ++ [base] ∧
        (splitterStep toolOk removeOk b log0 st (base, n)).staging =
          st.staging ++ splitChunkNames base n b ∧
        (removeOk base = true →
          (splitterStep toolOk removeOk b log0 st (base, n)).artifacts =
            st.artifacts.filter (fun a => !(a.1 == base))) ∧
        (removeOk base = false →
          (splitterStep toolOk removeOk b log0 st (base, n)).artifacts =
            st.artifacts)) ∧
    (∀ a ∈ st.artifacts,
      a ∉ (splitterStep toolOk removeOk b log0 st (base, n)).artifacts →
        toolOk base = true ∧ log0.contains base = false ∧ removeOk base = true) ∧
    ((∀ a ∈ st.artifacts, st.splitLog.contains a.1 = true) →
      splitter_main toolOk removeOk b st = st) := by
  refine ⟨?_, ?_, ?_, ?_, ?_⟩
  · intro h
    exact splitterStep_logged toolOk removeOk b log0 st base n h
  · intro h
    cases hc : log0.contains base with
    | true => exact splitterStep_logged toolOk removeOk b log0 st base n hc
    | false => exact splitterStep_toolfail toolOk removeOk b log0 st base n hc h
  · intro h1 h2
    cases hro : removeOk base with
    | true =>
      rw [splitterStep_success_rm toolOk removeOk b log0 st base n h1 h2 hro]
      exact ⟨rfl, rfl, fun _ => rfl, fun hcontra => (Bool.false_ne_true hcontra.symm).elim⟩
    | false =>
      rw [splitterStep_success_normv toolOk removeOk b log0 st base n h1 h2 hro]
      exact ⟨rfl, rfl, fun hcontra => (Bool.false_ne_true hcontra).elim, fun _ => rfl⟩
  · intro a ha hnot
    cases hc : log0.contains base with
    | true =>
      rw [splitterStep_logged toolOk removeOk b log0 st base n hc] at hnot
      exact absurd ha hnot
    | false =>
      cases ht : toolOk base with
      | false =>
        rw [splitterStep_toolfail toolOk removeOk b log0 st base n hc ht] at hnot
        exact absurd ha hnot
      | true =>
        cases hro : removeOk base with
        | false =>
          rw [splitterStep_success_normv toolOk removeOk b log0 st base n hc ht hro]
            at hnot
          exact absurd ha hnot
        | true => exact ⟨rfl, rfl, rfl⟩
  · intro hall
    unfold splitter_main
    apply splitterFold_id
    intro a ha
    exact hall a ((List.perm_insertionSort
      (fun a b : String × Nat => strLe a.1 b.1 = true) st.artifacts).mem_iff.mp ha)

theorem C6_witness :
    ((["done"] : List String).contains "done" = true ∧
      splitterStep (fun _ => true) (fun _ => true) 1000 ["done"]
        ⟨[("done", 5)], [], ["done"]⟩ ("done", 5) = ⟨[("done", 5)], [], ["done"]⟩) ∧
    (([] : List String).contains "new" = false ∧ (fun _ => true) "new" = true ∧
      (splitterStep (fun _ => true) (fun _ => true) 1000 []
        ⟨[("new", 3)], [], []⟩ ("new", 3)).splitLog = ([] : List String) ++ ["new"]) :=
  ⟨⟨by decide,
    (C6_splitter_idempotent (fun _ => true) (fun _ => true) 1000 ["done"]
      ⟨[("done", 5)], [], ["done"]⟩ "done" 5).1 (by decide)⟩,
   ⟨by decide, by decide,
    ((C6_splitter_idempotent (fun _ => true) (fun _ => true) 1000 []
      ⟨[("new", 3)], [], []⟩ "new" 3).2.2.1 (by decide) (by decide)).1⟩⟩

theorem splitChunkNames_zero (base : String) (b : Nat) : splitChunkNames base 0 b = [] := by
  unfold splitChunkNames numChunks
  cases b with
  | zero => rfl
  | succ b' =>
    rw [show 0 + (b' + 1) - 1 = b' from by omega,
      Nat.div_eq_of_lt (Nat.lt_succ_self b')]
    rfl

/-- Claim C9: splitting a zero-record (empty) conversion artifact produces
zero chunk files, reports success rather than an error, and the splitter's
main loop still appends the base to the split ledger. -/
theorem C9_zero_record_marked_complete (toolOk removeOk : String → Bool) (b : Nat)
    (log0 : List String) (st : SplitState) (base : String)
    (h1 : toolOk base = true) (h2 : log0.contains base = false) :
    splitChunkNames base 0 b = [] ∧
    (split_ndjson_file toolOk removeOk b base 0 st).2 = true ∧
    ((split_ndjson_file toolOk removeOk b base 0 st).1).staging = st.staging ∧
    (splitterStep toolOk removeOk b log0 st (base, 0)).splitLog =
      st.splitLog ++ [base] := by
  refine ⟨splitChunkNames_zero base b, ?_, ?_, ?_⟩
  · cases hro : removeOk base with
    | true => rw [split_ndjson_file_ok_rm toolOk removeOk b base 0 st h1 hro]
    | false => rw [split_ndjson_file_ok_normv toolOk removeOk b base 0 st h1 hro]
  · cases hro : removeOk base with
    | true =>
      rw [split_ndjson_file_ok_rm toolOk removeOk b base 0 st h1 hro]
      rw [show ((⟨st.artifacts.filter (fun a => !(a.1 == base)),
        st.staging ++ splitChunkNames base 0 b, st.splitLog⟩ : SplitState), true).1.staging
          = st.staging ++ splitChunkNames base 0 b from rfl]
      rw [splitChunkNames_zero, List.append_nil]
    | false =>
      rw [split_ndjson_file_ok_normv toolOk removeOk b base 0 st h1 hro]
      rw [show ((⟨st.artifacts, st.staging ++ splitChunkNames base 0 b,
        st.splitLog⟩ : SplitState), true).1.staging
          = st.staging ++ splitChunkNames base 0 b from rfl]
      rw [splitChunkNames_zero, List.append_nil]
  · cases hro : removeOk base with
    | true => rw [splitterStep_success_rm toolOk removeOk b log0 st base 0 h2 h1 hro]
    | false => rw [splitterStep_success_normv toolOk removeOk b log0 st base 0 h2 h1 hro]

theorem C9_witness :
    ((fun _ => true) "cap" = true ∧ ([] : List String).contains "cap" = false) ∧
    splitChunkNames "cap" 0 1000 = [] ∧
    (split_ndjson_file (fun _ => true) (fun _ => true) 1000 "cap" 0
      ⟨[("cap", 0)], [], []⟩).2 = true ∧
    ((split_ndjson_file (fun _ => true) (fun _ => true) 1000 "cap" 0
      ⟨[("cap", 0)], [], []⟩).1).staging = [] ∧
    (splitterStep (fun _ => true) (fun _ => true) 1000 []
      ⟨[("cap", 0)], [], []⟩ ("cap", 0)).splitLog = ([] : List String) ++ ["cap"] := by
  have h := C9_zero_record_marked_complete (fun _ => true) (fun _ => true) 1000 []
    ⟨[("cap", 0)], [], []⟩ "cap" (by decide) (by decide)
  exact ⟨⟨by decide, by decide⟩, h.1, h.2.1, h.2.2.1, h.2.2.2⟩

/-- Claim C7 (counterexample): the splitter's first chunk for base `cap` is
named `cap.chunk_aaaa` — a lowercase alphabetic suffix from GNU `split -a 4`
— not `cap.chunk_0000` as the zero-padded-decimal reading of the spec's
naming sentence would require. -/
theorem C7_counterexample : chunkName "cap" 0 ≠ specChunkName "cap" 0 := by
  decide

/-- Claim C7 (amended): every chunk is named
`<base>.chunk_<suffix>` where the suffix is the sequence index written as a
fixed-width (4) base-26 numeral over the lowercase letters 'a'..'z' (padded
with 'a', the zero digit of that encoding, rather than with '0'), and for
sequence indices in range lexicographic order of the chunk names coincides
with numeric order of the indices. -/
theorem C7_chunk_naming (base : String) (k m : Nat) (hk : k < 26 ^ 4)
    (hm : m < 26 ^ 4) :
    chunkName base k = base ++ ".chunk_" ++ String.mk (alphaSuffix 4 k) ∧
    (alphaSuffix 4 k).length = 4 ∧
    (∀ c ∈ alphaSuffix 4 k, 97 ≤ c.toNat ∧ c.toNat ≤ 122) ∧
    (strLt (chunkName base k) (chunkName base m) = true ↔ k < m) :=
  ⟨rfl, alphaSuffix_length 4 k, alphaSuffix_chars 4 k, chunkName_lt_iff base k m hk hm⟩

theorem C7_witness :
    (0 < 26 ^ 4 ∧ 27 < 26 ^ 4) ∧
    (alphaSuffix 4 0).length = 4 ∧
    (strLt (chunkName "cap" 0) (chunkName "cap" 27) = true ↔ 0 < 27) :=
  ⟨⟨by decide, by decide⟩,
    (C7_chunk_naming "cap" 0 27 (by decide) (by decide)).2.1,
    (C7_chunk_naming "cap" 0 27 (by decide) (by decide)).2.2.2⟩

/-- Claim C8: over any schedule of poll cycles starting from an empty
claimed set, the watcher never emits two events for the same file, and a
file is emitted exactly once when (and only when) some cycle lists it as a
`.pcap` file whose stability probe has both size reads succeed with equal
sizes; a probe with a failed read — in particular a file that disappears
mid-probe, failing the second read — never declares the file Stable, so
such a cycle contributes no event and the file is simply probed again on a
later cycle (the membership equivalence applies to the remaining cycles
unchanged). -/
theorem C8_watcher_exactly_once (cs : List PollCycle) (f : String) :
    ((runCycles cs []).1.Nodup) ∧
    (f ∈ (runCycles cs []).1 ↔
      ∃ c ∈ cs, f ∈ c.listing ∧ strEnds f ".pcap" = true ∧
        is_file_stable (c.probe f) = true) ∧
    ((∃ c ∈ cs, f ∈ c.listing ∧ strEnds f ".pcap" = true ∧
        is_file_stable (c.probe f) = true) → (runCycles cs []).1.count f = 1) ∧
    ((¬ ∃ c ∈ cs, f ∈ c.listing ∧ strEnds f ".pcap" = true ∧
        is_file_stable (c.probe f) = true) → (runCycles cs []).1.count f = 0) ∧
    (∀ p : ProbeResult, is_file_stable p = true ↔
      ∃ a, p.firstSize = some a ∧ p.secondSize = some a) ∧
    (∀ o : Option Nat, is_file_stable ⟨o, none⟩ = false ∧
      is_file_stable ⟨none, o⟩ = false) := by
  have hm : f ∈ (runCycles cs []).1 ↔
      ∃ c ∈ cs, f ∈ c.listing ∧ strEnds f ".pcap" = true ∧
        is_file_stable (c.probe f) = true := by
    rw [runCycles_mem_iff]
    simp
  refine ⟨runCycles_nodup cs [], hm, ?_, ?_, ?_, ?_⟩
  · intro h
    exact List.count_eq_one_of_mem (runCycles_nodup cs []) (hm.mpr h)
  · intro h
    rw [List.count_eq_zero]
    exact fun hmem => h (hm.mp hmem)
  · intro p
    rcases p with ⟨f1, s2⟩
    cases f1 with
    | none => simp [is_file_stable]
    | some a =>
      cases s2 with
      | none => simp [is_file_stable]
      | some b =>
        simp only [is_file_stable, beq_iff_eq, Option.some.injEq]
        constructor
        · intro h
          exact ⟨a, rfl, h.symm⟩
        · rintro ⟨x, rfl, h2⟩
          exact h2.symm
  · intro o
    cases o <;> simp [is_file_stable]

theorem C8_witness :
    (∃ c ∈ [(⟨["x.pcap"], fun _ => ⟨some 5, some 5⟩⟩ : PollCycle),
        ⟨["x.pcap"], fun _ => ⟨some 5, some 5⟩⟩],
      "x.pcap" ∈ c.listing ∧ strEnds "x.pcap" ".pcap" = true ∧
        is_file_stable (c.probe "x.pcap") = true) ∧
    (runCycles [(⟨["x.pcap"], fun _ => ⟨some 5, some 5⟩⟩ : PollCycle),
        ⟨["x.pcap"], fun _ => ⟨some 5, some 5⟩⟩] []).1.count "x.pcap" = 1 :=
  ⟨by decide,
    (C8_watcher_exactly_once [⟨["x.pcap"], fun _ => ⟨some 5, some 5⟩⟩,
      ⟨["x.pcap"], fun _ => ⟨some 5, some 5⟩⟩] "x.pcap").2.2.1 (by decide)⟩

theorem process_pcap_file_empty (n b : Nat) (moveOk uploadOk : String → Bool)
    (removeSourceOk : Bool) (base : String) (w : World)
    (hd : (distribute_chunks_for_base moveOk base
      { w.dist with staging := w.dist.staging ++ splitChunkNames base n b }).2 = []) :
    process_pcap_file true true n b moveOk uploadOk removeSourceOk base w =
      ({ w with dist := (distribute_chunks_for_base moveOk base
          { w.dist with staging := w.dist.staging ++ splitChunkNames base n b }).1 },
        ⟨true, true, false, false⟩) := by
  unfold process_pcap_file
  show (if (distribute_chunks_for_base moveOk base
      { w.dist with staging := w.dist.staging ++ splitChunkNames base n b }).2.isEmpty =
        true then _ else _) = _
  rw [hd]
  rw [if_pos (show (List.isEmpty ([] : List String)) = true from rfl)]

/-- Claim C10: when the split stage yields zero chunk files for a base (a
zero-record source) and staging holds no chunks of that base,
`distribute_chunks_for_base` returns the empty list, `process_pcap_file`
treats that as a stage failure — the trace stops at Distribute, Upload never
runs, and the source file is not deleted; the world is left exactly as it
was, so any number of restarted runs leaves the source file present, and a
fresh watcher pass (whose claimed set starts empty) re-enqueues the still
present, still stable source file each time. -/
theorem C10_zero_chunks_abort (b : Nat) (moveOk uploadOk : String → Bool)
    (removeSourceOk : Bool) (base : String) (w : World)
    (hch : w.dist.staging.filter (fun f => strStarts f (base ++ ".chunk_")) = []) :
    ((distribute_chunks_for_base moveOk base
      { w.dist with staging := w.dist.staging ++ splitChunkNames base 0 b }).2 = []) ∧
    ((process_pcap_file true true 0 b moveOk uploadOk removeSourceOk base w).2 =
      ⟨true, true, false, false⟩) ∧
    ((process_pcap_file true true 0 b moveOk uploadOk removeSourceOk base w).1 = w) ∧
    (∀ k, restartRuns true true 0 b moveOk uploadOk removeSourceOk base k w = w) ∧
    (∀ (src : String) (sz : Nat), strEnds src ".pcap" = true →
      (pollCycle ⟨[src], fun _ => ⟨some sz, some sz⟩⟩ []).1 = [src]) := by
  have hst : ({ w.dist with staging := w.dist.staging ++ splitChunkNames base 0 b }
      : DistState) = w.dist := by
    rw [splitChunkNames_zero, List.append_nil]
  have hd1 : distribute_chunks_for_base moveOk base
      { w.dist with staging := w.dist.staging ++ splitChunkNames base 0 b } =
      (w.dist, []) := by
    rw [hst]
    unfold distribute_chunks_for_base
    rw [hch]
    rfl
  have hproc := process_pcap_file_empty 0 b moveOk uploadOk removeSourceOk base w
    (by rw [hd1])
  rw [hd1] at hproc
  have hproc2 : process_pcap_file true true 0 b moveOk uploadOk removeSourceOk base w =
      (w, ⟨true, true, false, false⟩) := by
    rw [hproc]
  refine ⟨by rw [hd1], by rw [hproc2], by rw [hproc2], ?_, ?_⟩
  · intro k
    induction k with
    | zero => rfl
    | succ k ih =>
      show restartRuns true true 0 b moveOk uploadOk removeSourceOk base k
        (process_pcap_file true true 0 b moveOk uploadOk removeSourceOk base w).1 = w
      rw [hproc2]
      exact ih
  · intro src sz h
    unfold pollCycle
    rw [show ([src].filter (fun f => strEnds f ".pcap")) = [src] from by
      simp [List.filter_cons, h]]
    rw [List.foldl_cons]
    rw [pollStep_of_stable _ _ _ (by rfl) (by simp [is_file_stable])]
    rfl

theorem C3_witness :
    (2 < 4 ∧ 0 < 4 ∧ laneSize 5 2 ≤ laneSize 5 0 + 1) ∧
    ((["b", "a", "c", "d", "e"] : List String).Perm ["a", "b", "c", "d", "e"] ∧
      distribute_chunks ["b", "a", "c", "d", "e"] =
        distribute_chunks ["a", "b", "c", "d", "e"]) ∧
    (1 < 4 ∧
      ((chunk_distributor_base (fun _ => true) "x"
          ⟨["x.chunk_aaab", "x.chunk_aaaa", "x.chunk_aaac"], fun _ => [], []⟩).lanes
        1).length =
        ((⟨["x.chunk_aaab", "x.chunk_aaaa", "x.chunk_aaac"], fun _ => [],
            []⟩ : DistState).lanes 1).length +
          ((sortStr (((⟨["x.chunk_aaab", "x.chunk_aaaa", "x.chunk_aaac"], fun _ => [],
              []⟩ : DistState).staging.filter
                (fun f => strStarts f ("x" ++ ".chunk_"))).filter
              (fun f => !(⟨["x.chunk_aaab", "x.chunk_aaaa", "x.chunk_aaac"], fun _ => [],
                []⟩ : DistState).distLedger.contains f))).length - 1 + 3) / 4) :=
  ⟨⟨by decide, by decide,
      (C3_distribution_policies ["b", "a", "c", "d", "e"]).2.1 2 0 (by decide) (by decide)⟩,
    ⟨by decide,
      (C3_distribution_policies ["b", "a", "c", "d", "e"]).2.2.2.2.2.1
        ["a", "b", "c", "d", "e"] (by decide)⟩,
    ⟨by decide,
      (C3_distribution_policies ["b", "a", "c", "d", "e"]).2.2.2.2.2.2.2 "x"
        ⟨["x.chunk_aaab", "x.chunk_aaaa", "x.chunk_aaac"], fun _ => [], []⟩ 1
        (by decide)⟩⟩

theorem C10_witness :
    (([] : List String).filter (fun f => strStarts f ("cap" ++ ".chunk_")) = []) ∧
    ((process_pcap_file true true 0 1000 (fun _ => true) (fun _ => true) true "cap"
        ⟨true, ⟨[], fun _ => [], []⟩, fun _ => []⟩).2 = ⟨true, true, false, false⟩) ∧
    (restartRuns true true 0 1000 (fun _ => true) (fun _ => true) true "cap" 3
        ⟨true, ⟨[], fun _ => [], []⟩, fun _ => []⟩ =
      ⟨true, ⟨[], fun _ => [], []⟩, fun _ => []⟩) ∧
    (strEnds "cap.pcap" ".pcap" = true ∧
      (pollCycle ⟨["cap.pcap"], fun _ => ⟨some 7, some 7⟩⟩ []).1 = ["cap.pcap"]) := by
  have h := C10_zero_chunks_abort 1000 (fun _ => true) (fun _ => true) true "cap"
    ⟨true, ⟨[], fun _ => [], []⟩, fun _ => []⟩ (by decide)
  exact ⟨by decide, h.2.1, h.2.2.2.1 3, by decide, h.2.2.2.2 "cap.pcap" 7 (by decide)⟩
